import Mathlib

/-!
Verification of the windowing and span-alignment engine of the `pyner` NER
preprocessor (`pyner/models/ner.py`), shallowly embedded in Lean.

Token streams are the parallel arrays `begin`/`end`/`text` of the source
(`end` is spelled `end_` because `end` is a Lean keyword).  Machine integers
are `Nat`/`Int`; the `-1` sentinels of the source are kept as `Int` values.
-/

set_option maxHeartbeats 4000000
set_option maxRecDepth 100000

namespace Pyner

/-- One token of a stream, used to state well-formedness of the parallel
arrays (`begin` non-decreasing, non-overlapping spans). -/
structure Token where
  begin : Nat
  end_ : Nat
  text : String
  deriving Repr, DecidableEq

/-- Parallel token arrays, as in the dicts handled by `ner.py`
(`tokens["begin"]`, `tokens["end"]`, `tokens["text"]`). -/
structure Tokens where
  begin : List Nat
  end_ : List Nat
  text : List String
  deriving Repr, DecidableEq

/-- Build the parallel arrays from a token list. -/
def Tokens.ofList (ts : List Token) : Tokens :=
  { begin := ts.map Token.begin
    end_ := ts.map Token.end_
    text := ts.map Token.text }

/-- Python `bisect.bisect_left` on a sorted list equals the number of elements
strictly below the probe; all call sites in `ner.py` pass sorted offset
arrays, so this count is the faithful embedding. -/
def bisect_left (l : List Nat) (x : Nat) : Nat :=
  l.countP (fun y => y < x)

/-- Python `bisect.bisect_right` on a sorted list equals the number of
elements at or below the probe. -/
def bisect_right (l : List Nat) (x : Nat) : Nat :=
  l.countP (fun y => y ≤ x)

/-- Embedding of `slice_tokenization_output` (ner.py lines 16-30): restrict a
tokenized stream to the character range `[b, e)`, optionally inserting a
boundary marker before/after.  The marker rows carry `b` (resp. `e`) as both
begin and end offset, exactly as in the source. -/
def slice_tokenization_output (tokens : Tokens) (b e : Nat)
    (insert_before : Option String) (insert_after : Option String) : Tokens :=
  let index_after_first_token_begin := bisect_left tokens.begin b
  let index_before_first_token_end := bisect_right tokens.end_ b
  let index_after_last_token_begin := bisect_left tokens.begin e
  let index_before_last_token_end := bisect_right tokens.end_ e
  let begin_indice := min index_after_first_token_begin index_before_first_token_end
  let end_indice := max index_after_last_token_begin index_before_last_token_end
  { begin := (if insert_before.isSome then [b] else [])
      ++ ((tokens.begin.take end_indice).drop begin_indice)
      ++ (if insert_after.isSome then [e] else [])
    end_ := (if insert_before.isSome then [b] else [])
      ++ ((tokens.end_.take end_indice).drop begin_indice)
      ++ (if insert_after.isSome then [e] else [])
    text := (match insert_before with | some s => [s] | none => [])
      ++ ((tokens.text.take end_indice).drop begin_indice)
      ++ (match insert_after with | some s => [s] | none => []) }

/-- A token intersects the half-open character range `[b, e)`: it lies inside
or straddles a boundary. -/
def intersectsRange (b e : Nat) (t : Token) : Bool :=
  decide (b < t.end_) && decide (t.begin < e)

/-- Token streams are sorted by `begin` and non-overlapping
(data model of the spec, section 3). -/
def StreamWF (ts : List Token) : Prop :=
  ts.Pairwise (fun t u => t.end_ ≤ u.begin) ∧ ∀ t ∈ ts, t.begin < t.end_

section SliceLemmas

variable {α : Type}

/-- A predicate that transfers backwards along a pairwise relation makes
`filter` agree with `takeWhile`. -/
theorem filter_eq_takeWhile_of_closed (p : α → Bool) (r : α → α → Prop) :
    ∀ (l : List α), l.Pairwise r → (∀ u v, u ∈ l → v ∈ l → r u v → p v = true → p u = true) →
      l.filter p = l.takeWhile p
  | [], _, _ => rfl
  | a :: l, hp, hcl => by
    rcases List.pairwise_cons.mp hp with ⟨ha, hl⟩
    by_cases hpa : p a = true
    · rw [List.filter_cons_of_pos hpa, List.takeWhile_cons_of_pos hpa,
        filter_eq_takeWhile_of_closed p r l hl
          (fun u v hu hv hr hpv =>
            hcl u v (List.mem_cons_of_mem _ hu) (List.mem_cons_of_mem _ hv) hr hpv)]
    · rw [List.filter_cons_of_neg hpa, List.takeWhile_cons_of_neg hpa]
      exact List.filter_eq_nil_iff.mpr (fun v hv hpv =>
        hpa (hcl a v (List.mem_cons_self a l) (List.mem_cons_of_mem _ hv) (ha v hv) hpv))

/-- Under the same backwards-transfer condition, `countP` counts exactly the
initial `takeWhile` segment. -/
theorem countP_eq_takeWhile_length_of_closed (p : α → Bool) (r : α → α → Prop)
    (l : List α) (hp : l.Pairwise r)
    (hcl : ∀ u v, u ∈ l → v ∈ l → r u v → p v = true → p u = true) :
    l.countP p = (l.takeWhile p).length := by
  rw [← filter_eq_takeWhile_of_closed p r l hp hcl, List.countP_eq_length_filter]

/-- Taking a `takeWhile`-length prefix recovers the `takeWhile` segment. -/
theorem take_takeWhile_length (p : α → Bool) (l : List α) :
    l.take (l.takeWhile p).length = l.takeWhile p := by
  induction l with
  | nil => rfl
  | cons a l ih =>
    by_cases hpa : p a = true
    · rw [List.takeWhile_cons_of_pos hpa, List.length_cons, List.take_succ_cons, ih]
    · rw [List.takeWhile_cons_of_neg hpa, List.length_nil, List.take_zero]

end SliceLemmas

/-- On a well-formed stream, slicing between the two `takeWhile` boundaries
selects exactly the tokens intersecting `[b, e)`. -/
theorem take_drop_eq_filter_inter :
    ∀ (ts : List Token) (b e : Nat), StreamWF ts → b ≤ e →
      ((ts.take (ts.takeWhile (fun t => decide (t.begin < e))).length).drop
          (ts.takeWhile (fun t => decide (t.end_ ≤ b))).length)
        = ts.filter (intersectsRange b e)
  | [], _, _, _, _ => rfl
  | t :: l, b, e, hwf, hbe => by
    rcases hwf with ⟨hpw, hne⟩
    rcases List.pairwise_cons.mp hpw with ⟨hta, hpl⟩
    have hnet : t.begin < t.end_ := hne t (List.mem_cons_self t l)
    have hwfl : StreamWF l := ⟨hpl, fun u hu => hne u (List.mem_cons_of_mem _ hu)⟩
    by_cases hq : t.begin < e
    · by_cases hp : t.end_ ≤ b
      · have hwindow : ¬ intersectsRange b e t = true := by
          simp [intersectsRange, Nat.not_lt.mpr hp]
        rw [@List.takeWhile_cons_of_pos _ (fun u => decide (u.end_ ≤ b)) t l (decide_eq_true hp),
          @List.takeWhile_cons_of_pos _ (fun u => decide (u.begin < e)) t l (decide_eq_true hq),
          List.filter_cons_of_neg hwindow, List.length_cons, List.length_cons,
          List.take_succ_cons, List.drop_succ_cons]
        exact take_drop_eq_filter_inter l b e hwfl hbe
      · have hwindow : intersectsRange b e t = true := by
          simp [intersectsRange, Nat.lt_of_not_le hp, hq]
        have hnotp : ∀ u ∈ l, ¬ (u.end_ ≤ b) := by
          intro u hu hub
          have h1 : t.end_ ≤ u.begin := hta u hu
          have h2 : u.begin < u.end_ := hne u (List.mem_cons_of_mem _ hu)
          exact hp (le_trans (le_of_lt (lt_of_le_of_lt h1 h2)) hub)
        have hfl : l.filter (intersectsRange b e)
            = l.filter (fun u => decide (u.begin < e)) := by
          apply List.filter_congr
          intro u hu
          simp [intersectsRange, Nat.lt_of_not_le (hnotp u hu)]
        have htweq : l.filter (fun u => decide (u.begin < e))
            = l.takeWhile (fun u => decide (u.begin < e)) := by
          apply filter_eq_takeWhile_of_closed (fun u => decide (u.begin < e))
            (fun t u => t.end_ ≤ u.begin) l hpl
          intro u v hu hv hr hv2
          simp only [decide_eq_true_eq] at hv2 ⊢
          exact lt_of_lt_of_le (hne u (List.mem_cons_of_mem _ hu)) (le_trans hr (le_of_lt hv2))
        rw [@List.takeWhile_cons_of_neg _ (fun u => decide (u.end_ ≤ b)) t l (by simpa using hp),
          @List.takeWhile_cons_of_pos _ (fun u => decide (u.begin < e)) t l (decide_eq_true hq),
          List.filter_cons_of_pos hwindow, List.length_nil, List.length_cons,
          List.take_succ_cons, List.drop_zero,
          take_takeWhile_length (fun u => decide (u.begin < e)) l, ← htweq, ← hfl]
    · have hwindow : ¬ intersectsRange b e t = true := by
        simp [intersectsRange, hq]
      have hnotq : ∀ u ∈ l, ¬ intersectsRange b e u = true := by
        intro u hu
        have h1 : t.end_ ≤ u.begin := hta u hu
        have : ¬ (u.begin < e) := by
          intro hlt
          exact hq (lt_of_le_of_lt (le_trans (le_of_lt hnet) h1) hlt)
        simp [intersectsRange, this]
      have hfilter : (t :: l).filter (intersectsRange b e) = [] := by
        rw [List.filter_cons_of_neg hwindow]
        exact List.filter_eq_nil_iff.mpr hnotq
      rw [@List.takeWhile_cons_of_neg _ (fun u => decide (u.begin < e)) t l (by simpa using hq),
        List.length_nil, List.take_zero, List.drop_nil, hfilter]

/-- Core characterisation of the window slicer on a well-formed stream: it
returns exactly the tokens intersecting `[b, e)`, wrapped in the requested
markers. -/
theorem slice_tokenization_output_eq (ts : List Token) (b e : Nat)
    (hwf : StreamWF ts) (hbe : b ≤ e) (ib ia : Option String) :
    slice_tokenization_output (Tokens.ofList ts) b e ib ia
      = { begin := (if ib.isSome then [b] else [])
            ++ (ts.filter (intersectsRange b e)).map Token.begin
            ++ (if ia.isSome then [e] else [])
          end_ := (if ib.isSome then [b] else [])
            ++ (ts.filter (intersectsRange b e)).map Token.end_
            ++ (if ia.isSome then [e] else [])
          text := (match ib with | some s => [s] | none => [])
            ++ (ts.filter (intersectsRange b e)).map Token.text
            ++ (match ia with | some s => [s] | none => []) } := by
  have hmono1 : ts.countP (fun t => decide (t.end_ ≤ b))
      ≤ ts.countP (fun t => decide (t.begin < b)) := by
    apply List.countP_mono_left
    intro t ht h
    simp only [decide_eq_true_eq] at h ⊢
    exact lt_of_lt_of_le (hwf.2 t ht) h
  have hmono2 : ts.countP (fun t => decide (t.end_ ≤ e))
      ≤ ts.countP (fun t => decide (t.begin < e)) := by
    apply List.countP_mono_left
    intro t ht h
    simp only [decide_eq_true_eq] at h ⊢
    exact lt_of_lt_of_le (hwf.2 t ht) h
  have hcb : ts.countP (fun t => decide (t.end_ ≤ b))
      = (ts.takeWhile (fun t => decide (t.end_ ≤ b))).length := by
    apply countP_eq_takeWhile_length_of_closed _ (fun t u => t.end_ ≤ u.begin) ts hwf.1
    intro u v _ hv hr hpv
    simp only [decide_eq_true_eq] at hpv ⊢
    exact le_trans (le_of_lt (lt_of_le_of_lt hr (hwf.2 v hv))) hpv
  have hce : ts.countP (fun t => decide (t.begin < e))
      = (ts.takeWhile (fun t => decide (t.begin < e))).length := by
    apply countP_eq_takeWhile_length_of_closed _ (fun t u => t.end_ ≤ u.begin) ts hwf.1
    intro u v hu _ hr hpv
    simp only [decide_eq_true_eq] at hpv ⊢
    exact lt_of_lt_of_le (hwf.2 u hu) (le_trans hr (le_of_lt hpv))
  simp only [slice_tokenization_output, Tokens.ofList, bisect_left, bisect_right,
    List.countP_map, Function.comp_def]
  rw [Nat.min_eq_right hmono1, Nat.max_eq_left hmono2, hcb, hce,
    ← List.map_take, ← List.map_drop, ← List.map_take, ← List.map_drop,
    ← List.map_take, ← List.map_drop, take_drop_eq_filter_inter ts b e hwf hbe]

/-- C4: the window slicer returns each token lying in or straddling the
character range `[begin, end)` exactly once (never duplicated, never
dropped), and when the range contains no tokens it returns empty
begin/end/text arrays plus the requested boundary markers only (stream
well-formedness per the data model: tokens sorted by begin, non-overlapping,
non-empty). -/
theorem slice_tokenization_output_window_exact (ts : List Token) (b e : Nat)
    (hwf : StreamWF ts) (hbe : b ≤ e) :
    (slice_tokenization_output (Tokens.ofList ts) b e none none
       = Tokens.ofList (ts.filter (intersectsRange b e)))
    ∧ ((∀ t ∈ ts, ¬ intersectsRange b e t = true) → ∀ ib ia : String,
        slice_tokenization_output (Tokens.ofList ts) b e (some ib) (some ia)
          = { begin := [b, e], end_ := [b, e], text := [ib, ia] }) := by
  constructor
  · rw [slice_tokenization_output_eq ts b e hwf hbe none none]
    simp [Tokens.ofList]
  · intro hempty ib ia
    rw [slice_tokenization_output_eq ts b e hwf hbe (some ib) (some ia)]
    have : ts.filter (intersectsRange b e) = [] := List.filter_eq_nil_iff.mpr hempty
    simp [this]

/-- Witness for C4 at a concrete stream: tokens `[0,2) [2,5) [6,9)`, range
`[3, 7)` keeps the straddling tokens exactly once; range `[5, 6)` (the gap)
returns only the markers. -/
theorem slice_tokenization_output_window_exact_witness :
    (slice_tokenization_output
        (Tokens.ofList [⟨0, 2, "ab"⟩, ⟨2, 5, "cde"⟩, ⟨6, 9, "ghi"⟩]) 3 7 none none
       = Tokens.ofList [⟨2, 5, "cde"⟩, ⟨6, 9, "ghi"⟩])
    ∧ (slice_tokenization_output
        (Tokens.ofList [⟨0, 2, "ab"⟩, ⟨2, 5, "cde"⟩, ⟨6, 9, "ghi"⟩]) 5 6 (some "[CLS]") (some "[SEP]")
       = { begin := [5, 6], end_ := [5, 6], text := ["[CLS]", "[SEP]"] }) := by
  constructor
  · have h := slice_tokenization_output_window_exact
      [⟨0, 2, "ab"⟩, ⟨2, 5, "cde"⟩, ⟨6, 9, "ghi"⟩] 3 7
      (by constructor <;> decide) (by decide)
    rw [h.1]
    rfl
  · have h := slice_tokenization_output_window_exact
      [⟨0, 2, "ab"⟩, ⟨2, 5, "cde"⟩, ⟨6, 9, "ghi"⟩] 5 6
      (by constructor <;> decide) (by decide)
    exact h.2 (by decide) "[CLS]" "[SEP]"

/-! ## Sentence window builder (`NERPreprocessor.sentencize_and_tokenize`) -/

/-- Integer ceiling division, embedding Python `math.ceil(a / b)` on
non-negative integers. -/
def ceil_div (a b : Nat) : Nat := (a + b - 1) / b

/-- Modelled from the spec: the span-mapping primitive `split_spans`
(imported from `pyner.data_utils`, whose source is not part of the two files
under verification).  Per the spec (section 6, `map_spans`), each parent span
is mapped onto the index range of the child token array it genuinely
overlaps, or `-1` when it overlaps none; a zero-length parent overlaps no
child.  Returns the parallel `(mapped_begin_idx, mapped_end_idx)` arrays,
with the end index exclusive (the caller converts it to an inclusive last
index by subtracting 1, as in `ner.py` line 233). -/
def split_spans (parent_begin parent_end child_begin child_end : List Nat) :
    List Int × List Int :=
  let pairs := (parent_begin.zip parent_end).map (fun p =>
    let hits := ((child_begin.zip child_end).enum).filter
      (fun ic => decide (max p.1 ic.2.1 < min p.2 ic.2.2))
    match hits with
    | [] => ((-1 : Int), (-1 : Int))
    | h :: _ => ((h.1 : Int), ((hits.getLastD h).1 + 1 : Int)))
  (pairs.map (fun q => q.1), pairs.map (fun q => q.2))

/-- Filter a parallel list by a boolean mask (numpy boolean indexing /
the `zip`-comprehensions of ner.py lines 374-379). -/
def maskFilter {α : Type} (mask : List Bool) (l : List α) : List α :=
  ((mask.zip l).filter (fun p => p.1)).map (fun p => p.2)

/-- Configuration slice of `NERPreprocessor` relevant to windowing.
`max_tokens = None` is not modelled: the source compares `max_tokens` with
`<`/`>` unconditionally inside `sentencize_and_tokenize`, which requires an
int.  The stochastic `join_small_sentence_rate` draws are made explicit as a
boolean stream (`draws` argument of the loop). -/
structure PrepConfig where
  min_tokens : Option Nat
  max_tokens : Nat
  large_sentences : String
  training : Bool
  keep_bert_special_tokens : Bool
  insert_before : Option String
  insert_after : Option String
  deriving Repr, DecidableEq

/-- Failures of the windowing loop.  `largeSentence` embeds
`LargeSentenceException` (ner.py line 390); `noSplitWord` is the
`StopIteration` escaping from `next(...)` at line 391; `noMinTokens` is the
`TypeError` of `max(int, None)` at line 386 when `min_tokens is None`;
`outOfFuel` makes the recursion total. -/
inductive SentencizeError where
  | largeSentence (sentence_text : List Char)
  | noSplitWord
  | noMinTokens
  | outOfFuel
  deriving Repr, DecidableEq

/-- One emitted window: its sliced subword tokens (markers included), the
window's aligned words and their subword index ranges. -/
structure Window where
  bert_tokens : Tokens
  words : Tokens
  words_bert_begin : List Int
  words_bert_end : List Int
  deriving Repr, DecidableEq

/-- Embedding of the work-queue loop of `sentencize_and_tokenize`
(ner.py lines 349-447).  State: remaining sentence bounds, the retained
window start `begin` (`None` after an emission or split), the index of the
next random draw, and the windows emitted so far.  Bookkeeping that no claim
consults (`bert_offset`, token ids, `slice_document`) is not recorded. -/
def sentencize_loop (cfg : PrepConfig) (text : List Char)
    (full_doc_bert_tokens full_doc_words : Tokens) (draws : Nat → Bool) :
    Nat → List (Nat × Nat) → Option Nat → Nat → List Window →
    Except SentencizeError (List Window)
  | 0, _, _, _, _ => .error .outOfFuel
  | _ + 1, [], _, _, acc => .ok acc
  | fuel + 1, (new_begin, end_) :: rest, beginOpt, drawIdx, acc =>
    let b := beginOpt.getD new_begin
    let sentence_text := (text.take end_).drop b
    if sentence_text.all Char.isWhitespace then
      sentencize_loop cfg text full_doc_bert_tokens full_doc_words draws
        fuel rest (some b) drawIdx acc
    else
      let bert_tokens := slice_tokenization_output full_doc_bert_tokens b end_
        cfg.insert_before cfg.insert_after
      let n := bert_tokens.text.length
      let below_min := match cfg.min_tokens with
        | some m => decide (n < m)
        | none => false
      let consultsDraw := !below_min && decide (n < cfg.max_tokens) && cfg.training
      let small_cond := below_min
        || (decide (n < cfg.max_tokens) && (!cfg.training || draws drawIdx))
      let drawIdx' := if consultsDraw then drawIdx + 1 else drawIdx
      let merged := small_cond && (match rest with
        | [] => false
        | (nb2, ne2) :: _ =>
          decide (n + (slice_tokenization_output full_doc_bert_tokens nb2 ne2
            none none).text.length + 2 < cfg.max_tokens))
      if merged then
        sentencize_loop cfg text full_doc_bert_tokens full_doc_words draws
          fuel rest (some b) drawIdx' acc
      else
        let word_marker : Option String := if cfg.keep_bert_special_tokens then some "" else none
        let words0 := slice_tokenization_output full_doc_words b end_ word_marker word_marker
        let wspans := split_spans words0.begin words0.end_ bert_tokens.begin bert_tokens.end_
        let keep := wspans.1.map (fun x => decide (x ≠ -1))
        let words : Tokens :=
          { begin := maskFilter keep words0.begin
            end_ := maskFilter keep words0.end_
            text := maskFilter keep words0.text }
        let words_bert_end := maskFilter keep wspans.2
        let words_bert_begin := maskFilter keep wspans.1
        if cfg.max_tokens < n then
          match (if cfg.large_sentences = "equal-split" then
              match cfg.min_tokens with
              | some m => Except.ok (max (n / ceil_div n cfg.max_tokens) m)
              | none => Except.error SentencizeError.noMinTokens
            else if cfg.large_sentences = "max-split" then
              Except.ok cfg.max_tokens
            else
              Except.error (SentencizeError.largeSentence sentence_text)) with
          | .error err => .error err
          | .ok stop_bert_token =>
            match (List.range (words_bert_end.length - 1)).find?
                (fun i => decide ((stop_bert_token : Int) ≤ words_bert_end.getD (i + 1) 0)) with
            | none => .error .noSplitWord
            | some last_word =>
              sentencize_loop cfg text full_doc_bert_tokens full_doc_words draws
                fuel ((b, words.end_.getD last_word 0)
                  :: (words.begin.getD (last_word + 1) 0, end_) :: rest)
                none drawIdx' acc
        else
          sentencize_loop cfg text full_doc_bert_tokens full_doc_words draws
            fuel rest none drawIdx'
            (acc ++ [{ bert_tokens := bert_tokens, words := words,
                       words_bert_begin := words_bert_begin,
                       words_bert_end := words_bert_end }])

/-- Entry point mirroring `sentencize_and_tokenize`: process the externally
supplied sentence bounds front to back, starting with no retained window
start and no emitted window. -/
def sentencize_and_tokenize (cfg : PrepConfig) (text : List Char)
    (full_doc_bert_tokens full_doc_words : Tokens)
    (sentences_bounds : List (Nat × Nat)) (draws : Nat → Bool) (fuel : Nat) :
    Except SentencizeError (List Window) :=
  sentencize_loop cfg text full_doc_bert_tokens full_doc_words draws
    fuel sentences_bounds none 0 []

/-- Invariant of the windowing loop: a window is only ever emitted in the
branch where its subword-token count (markers included) passed the
`max_tokens` check, so every window of a successful run is within budget. -/
theorem sentencize_loop_budget (cfg : PrepConfig) (text : List Char)
    (bt wd : Tokens) (draws : Nat → Bool) :
    ∀ (fuel : Nat) (queue : List (Nat × Nat)) (beginOpt : Option Nat)
      (drawIdx : Nat) (acc ws : List Window),
      (∀ w ∈ acc, w.bert_tokens.text.length ≤ cfg.max_tokens) →
      sentencize_loop cfg text bt wd draws fuel queue beginOpt drawIdx acc = .ok ws →
      ∀ w ∈ ws, w.bert_tokens.text.length ≤ cfg.max_tokens := by
  intro fuel
  induction fuel with
  | zero =>
    intro queue beginOpt drawIdx acc ws hacc h
    simp [sentencize_loop] at h
  | succ fuel ih =>
    intro queue beginOpt drawIdx acc ws hacc h
    rcases queue with _ | ⟨⟨nb, ne⟩, rest⟩
    · simp only [sentencize_loop, Except.ok.injEq] at h
      exact h ▸ hacc
    · simp only [sentencize_loop] at h
      split at h
      · exact ih rest _ _ acc ws hacc h
      · split at h
        · exact ih rest _ _ acc ws hacc h
        · split at h
          · split at h
            · exact absurd h (by simp)
            · split at h
              · exact absurd h (by simp)
              · exact ih _ _ _ acc ws hacc h
          · rename_i hnotbig
            refine ih rest _ _ _ ws ?_ h
            intro w hw
            rcases List.mem_append.mp hw with hw1 | hw2
            · exact hacc w hw1
            · rcases List.mem_singleton.mp hw2 with rfl
              exact Nat.le_of_not_lt hnotbig

/-- C1: under `large_sentences = "equal-split"` or `"max-split"`, every
window emitted by the sentence window builder has at most `max_tokens`
subword tokens, the inserted boundary markers included; under
`large_sentences = "raise"` an over-budget sentence makes the run fail with
`LargeSentenceException` (carrying the sentence text) instead of emitting an
over-budget window. -/
theorem sentencize_budget_claim (cfg : PrepConfig) (text : List Char)
    (bt wd : Tokens) (draws : Nat → Bool) :
    ((cfg.large_sentences = "equal-split" ∨ cfg.large_sentences = "max-split") →
      ∀ (bounds : List (Nat × Nat)) (fuel : Nat) (ws : List Window),
        sentencize_and_tokenize cfg text bt wd bounds draws fuel = .ok ws →
        ∀ w ∈ ws, w.bert_tokens.text.length ≤ cfg.max_tokens)
    ∧ (cfg.large_sentences = "raise" →
      ∀ (nb ne fuel : Nat),
        ¬ ((text.take ne).drop nb).all Char.isWhitespace →
        cfg.max_tokens
          < (slice_tokenization_output bt nb ne cfg.insert_before cfg.insert_after).text.length →
        sentencize_and_tokenize cfg text bt wd [(nb, ne)] draws (fuel + 1)
          = .error (.largeSentence ((text.take ne).drop nb))) := by
  constructor
  · intro _ bounds fuel ws h
    exact sentencize_loop_budget cfg text bt wd draws fuel bounds none 0 [] ws
      (by intro w hw; simp at hw) h
  · intro hpol nb ne fuel hws hbig
    simp only [sentencize_and_tokenize, sentencize_loop, Option.getD]
    rw [if_neg hws, if_neg (by simp), if_pos hbig, hpol]
    rw [if_neg (by decide), if_neg (by decide)]

/-- Concrete configuration for exercising the budget claim: three
single-subword tokens under a budget of 5. -/
def c1_cfg : PrepConfig :=
  { min_tokens := some 2, max_tokens := 5, large_sentences := "equal-split",
    training := false, keep_bert_special_tokens := false,
    insert_before := none, insert_after := none }

/-- The same configuration under the `raise` policy. -/
def c1_cfg_raise : PrepConfig := { c1_cfg with large_sentences := "raise" }

/-- Stream of three one-character subword tokens. -/
def c1_bert : Tokens := Tokens.ofList [⟨0, 1, "t"⟩, ⟨1, 2, "t"⟩, ⟨2, 3, "t"⟩]

/-- Stream of eight one-character subword tokens (over the budget of 5). -/
def c1_bert8 : Tokens :=
  Tokens.ofList ((List.range 8).map (fun i => ⟨i, i + 1, "t"⟩))

/-- The window emitted for the three-token sentence. -/
def c1_window : Window :=
  { bert_tokens := { begin := [0, 1, 2], end_ := [1, 2, 3], text := ["t", "t", "t"] }
    words := { begin := [0, 1, 2], end_ := [1, 2, 3], text := ["t", "t", "t"] }
    words_bert_begin := [0, 1, 2]
    words_bert_end := [1, 2, 3] }

/-- Witness for C1: the budget bound instantiated on a concrete 3-token run
under `equal-split` (budget 5), and the `raise` failure on a concrete
8-token sentence exceeding the budget. -/
theorem sentencize_budget_claim_witness :
    (∀ w ∈ [c1_window], w.bert_tokens.text.length ≤ c1_cfg.max_tokens)
    ∧ sentencize_and_tokenize c1_cfg_raise (['a','b','c','d','e','f','g','h']) c1_bert8 c1_bert8
        [(0, 8)] (fun _ => false) (2 + 1)
      = .error (.largeSentence (((['a','b','c','d','e','f','g','h'] : List Char).take 8).drop 0)) :=
  ⟨(sentencize_budget_claim c1_cfg ['a','b','c'] c1_bert c1_bert (fun _ => false)).1
      (Or.inl rfl) [(0, 3)] 3 [c1_window] rfl,
    (sentencize_budget_claim c1_cfg_raise ['a','b','c','d','e','f','g','h'] c1_bert8 c1_bert8
        (fun _ => false)).2 rfl 0 8 2 (by decide) (by decide)⟩

/-! ### C2: equal-split scenario (one sentence of 1000 subword tokens) -/

/-- Document stream with 1000 one-character subword tokens. -/
def c2_bert : Tokens := Tokens.ofList ((List.range 1000).map (fun i => ⟨i, i + 1, "t"⟩))

/-- The same document as 10 words of 100 subword tokens each. -/
def c2_words : Tokens :=
  Tokens.ofList ((List.range 10).map (fun j => ⟨100 * j, 100 * j + 100, "w"⟩))

/-- The claim's configuration: `max_tokens = 500`, `min_tokens = 128`,
policy `equal-split`, non-training. -/
def c2_cfg : PrepConfig :=
  { min_tokens := some 128, max_tokens := 500, large_sentences := "equal-split",
    training := false, keep_bert_special_tokens := false,
    insert_before := none, insert_after := none }

/-- Text of the 1000-character document. -/
def c2_text : List Char := List.replicate 1000 'a'

/-- Counterexample to C2: the single 1000-subword-token sentence with
`max_tokens = 500`, `min_tokens = 128` under `equal-split` does NOT produce
exactly 2 windows.  The first cut lands strictly below `stop = 500` (the
split looks for the first word whose following word's subword end reaches
`stop` and cuts before it), so the remainder still exceeds the budget and is
split again: 3 windows result. -/
theorem equal_split_scenario_counterexample :
    ((sentencize_and_tokenize c2_cfg c2_text c2_bert c2_words [(0, 1000)]
        (fun _ => false) 10).map (fun ws => ws.length) = .ok 3)
    ∧ (((sentencize_and_tokenize c2_cfg c2_text c2_bert c2_words [(0, 1000)]
        (fun _ => false) 10).map (fun ws => ws.length) = .ok 2) = False) := by
  have heval : (sentencize_and_tokenize c2_cfg c2_text c2_bert c2_words [(0, 1000)]
      (fun _ => false) 10).map (fun ws => ws.length) = .ok 3 := rfl
  refine ⟨heval, eq_false ?_⟩
  intro h
  rw [heval] at h
  exact absurd (Except.ok.inj h) (by decide)

/-- C2 (amended): under `equal-split` an oversized sentence is split with
`stop = max(token_count // ceil(token_count / max_tokens), min_tokens)`, the
cut placed before the first word whose following word's subword end reaches
`stop`, and the two candidates `(begin, word_end)` / `(next_word_begin, end)`
pushed onto the front of the work queue (second conjunct: the first loop
step turns the queue `[(0, 1000)]` into `[(0, 400), (400, 1000)]`); for one
sentence of 1000 subword tokens with `max_tokens = 500`, `min_tokens = 128`,
exactly 3 windows are produced (the remainder of each cut stays over
budget once more), each at most 500 and at least 128 tokens. -/
theorem equal_split_scenario_amended :
    ((sentencize_and_tokenize c2_cfg c2_text c2_bert c2_words [(0, 1000)]
        (fun _ => false) 10).map (fun ws => ws.map (fun w => w.bert_tokens.text.length))
      = .ok [400, 200, 400])
    ∧ (∀ fuel : Nat,
        sentencize_loop c2_cfg c2_text c2_bert c2_words (fun _ => false)
            (fuel + 1) [(0, 1000)] none 0 []
          = sentencize_loop c2_cfg c2_text c2_bert c2_words (fun _ => false)
            fuel [(0, 400), (400, 1000)] none 0 [])
    ∧ (∀ x ∈ [400, 200, 400], 128 ≤ x ∧ x ≤ 500) :=
  ⟨rfl, fun _ => rfl, by decide⟩

/-! ### C3: deterministic greedy merging outside training mode -/

/-- Outside training mode the windowing loop never consults the random
draws: its result is independent of the draw stream and of the draw
index. -/
theorem sentencize_loop_draws_irrelevant (cfg : PrepConfig) (text : List Char)
    (bt wd : Tokens) (hT : cfg.training = false) (d d' : Nat → Bool) :
    ∀ (fuel : Nat) (queue : List (Nat × Nat)) (beginOpt : Option Nat)
      (i i' : Nat) (acc : List Window),
      sentencize_loop cfg text bt wd d fuel queue beginOpt i acc
        = sentencize_loop cfg text bt wd d' fuel queue beginOpt i' acc := by
  intro fuel
  induction fuel with
  | zero => intro queue beginOpt i i' acc; rfl
  | succ fuel ih =>
    intro queue beginOpt i i' acc
    rcases queue with _ | ⟨⟨nb, ne⟩, rest⟩
    · rfl
    · simp only [sentencize_loop, hT, Bool.not_false, Bool.true_or, Bool.and_true,
        Bool.and_false, Bool.false_eq_true, if_false]
      split
      · exact ih rest _ i i' acc
      · split
        · exact ih rest _ i i' acc
        · split
          · split
            · rfl
            · split
              · rfl
              · exact ih _ _ i i' acc
          · exact ih rest _ i i' _

/-- Stream of 110 one-character subword tokens for the merge scenario. -/
def c3_bert : Tokens := Tokens.ofList ((List.range 110).map (fun i => ⟨i, i + 1, "t"⟩))

/-- Merge-scenario configuration: `min_tokens = 128`, `max_tokens = 512`,
non-training, with one boundary marker on each side. -/
def c3_cfg : PrepConfig :=
  { min_tokens := some 128, max_tokens := 512, large_sentences := "equal-split",
    training := false, keep_bert_special_tokens := false,
    insert_before := some "[CLS]", insert_after := some "[SEP]" }

/-- Text of the 110-character document. -/
def c3_text : List Char := List.replicate 110 'a'

/-- C3: outside training mode the `join_small_sentence_rate` draw is never
consulted, so merging a below-budget sentence with the next candidate is
deterministic greedy packing; concretely, two consecutive sentences of
subword lengths 50 and 60 with `min_tokens = 128`, `max_tokens = 512` merge
into a single window of 110 tokens plus the two boundary markers
(112 in total). -/
theorem nontraining_merge_deterministic (cfg : PrepConfig) (text : List Char)
    (bt wd : Tokens) :
    (cfg.training = false →
      ∀ (d d' : Nat → Bool) (fuel : Nat) (queue : List (Nat × Nat))
        (beginOpt : Option Nat) (i i' : Nat) (acc : List Window),
        sentencize_loop cfg text bt wd d fuel queue beginOpt i acc
          = sentencize_loop cfg text bt wd d' fuel queue beginOpt i' acc)
    ∧ ((sentencize_and_tokenize c3_cfg c3_text c3_bert c3_bert [(0, 50), (50, 110)]
        (fun _ => false) 10).map (fun ws => ws.map (fun w => w.bert_tokens.text.length))
      = .ok [110 + 2]) :=
  ⟨fun hT d d' fuel queue beginOpt i i' acc =>
      sentencize_loop_draws_irrelevant cfg text bt wd hT d d' fuel queue beginOpt i i' acc,
    rfl⟩

/-- Witness for C3: the determinism conjunct applied to the concrete merge
scenario, with two different draw streams and draw indices. -/
theorem nontraining_merge_deterministic_witness :
    sentencize_loop c3_cfg c3_text c3_bert c3_bert (fun _ => false)
        10 [(0, 50), (50, 110)] none 0 []
      = sentencize_loop c3_cfg c3_text c3_bert c3_bert (fun _ => true)
        10 [(0, 50), (50, 110)] none 7 [] :=
  (nontraining_merge_deterministic c3_cfg c3_text c3_bert c3_bert).1 rfl
    (fun _ => false) (fun _ => true) 10 [(0, 50), (50, 110)] none 0 7 []

/-! ## Sample annotation builder (`NERPreprocessor.forward`, entity loop) -/

/-- An entity label as handled by `forward`: either one string or a list of
strings (`tuple`/`list` in the source). -/
inductive LabelVal where
  | single (s : String)
  | multi (ls : List String)
  deriving Repr, DecidableEq

/-- A gold fragment as read from the document: character offsets and an
optional explicit label (`fragment.get("label", ...)`). -/
structure EntityFragment where
  begin : Nat
  end_ : Nat
  label : Option String
  deriving Repr, DecidableEq

/-- A gold entity: id, label(s) and fragments.  Attributes are not modelled
(the claims under verification run with
`convert_attributes_to_labels = False`). -/
structure Entity where
  entity_id : String
  label : LabelVal
  fragments : List EntityFragment
  deriving Repr, DecidableEq

/-- Configuration slice of `NERPreprocessor.forward`.  `multi_label = None`
behaves as `False` in the source's truth tests and is modelled as `false`. -/
structure ForwardConfig where
  multi_label : Bool
  fragment_label_is_entity_label : Bool
  filter_entities : Option (List String)
  deriving Repr, DecidableEq

/-- Python `set(entity["label"])`: a string becomes its set of characters
(one-character strings), a list its set of members (ner.py line 164). -/
def labelSet : LabelVal → List String
  | .single s => s.data.map (fun c => String.mk [c])
  | .multi ls => ls

/-- The entity filter of ner.py lines 162-165: keep the entity when no
filter is configured or its label set meets the filter set. -/
def entityKept (cfg : ForwardConfig) (e : Entity) : Bool :=
  match cfg.filter_entities with
  | none => true
  | some fs => decide ((labelSet e.label).any (fun l => fs.contains l))

/-- Embedding of the label-arity normalisation of ner.py lines 179-183:
in multi-label mode a bare label is wrapped into a one-element list; in
single-label mode a label list raises. -/
def normalize_entity_label (cfg : ForwardConfig) (e : Entity) : Except String LabelVal :=
  match cfg.multi_label, e.label with
  | true, .single s => .ok (.multi [s])
  | true, .multi ls => .ok (.multi ls)
  | false, .multi _ =>
    .error ("Entity " ++ e.entity_id ++ " has multiple labels but multi_label parameter is False")
  | false, .single s => .ok (.single s)

/-- The dedup key of a fragment (ner.py line 195):
`(begin, end, fragment.get("label", entity_label_default))` where the
default is the raw entity label when `fragment_label_is_entity_label` and
not `multi_label`, else `"main"`. -/
def fragmentKey (cfg : ForwardConfig) (e : Entity) (f : EntityFragment) :
    Nat × Nat × LabelVal :=
  (f.begin, f.end_,
    match f.label with
    | some s => .single s
    | none =>
      if cfg.fragment_label_is_entity_label && !cfg.multi_label then e.label
      else .single "main")

/-- The label stored in the fragment arrays (ner.py line 206): the raw
entity label under `fragment_label_is_entity_label`, else the fragment's own
mandatory label (`KeyError` when absent). -/
def storedFragmentLabel (cfg : ForwardConfig) (e : Entity) (f : EntityFragment) :
    Except String LabelVal :=
  if cfg.fragment_label_is_entity_label then .ok e.label
  else match f.label with
    | some s => .ok (.single s)
    | none => .error "KeyError: label"

/-- Mutable state of the entity/fragment collection loop of `forward`
(ner.py lines 150-208), as explicit parallel lists.  `fragments_dict` is the
Python dict, kept in insertion order. -/
structure ForwardState where
  fragments_dict : List ((Nat × Nat × LabelVal) × (Nat × String))
  fragments_begin : List Nat
  fragments_end : List Nat
  fragments_label : List LabelVal
  fragments_id : List String
  fragments_entities : List (List Nat)
  entities_label : List LabelVal
  entities_fragments : List (List String)
  deriving Repr, DecidableEq

/-- The empty initial state of the collection loop. -/
def ForwardState.initial : ForwardState :=
  { fragments_dict := [], fragments_begin := [], fragments_end := []
    fragments_label := [], fragments_id := [], fragments_entities := []
    entities_label := [], entities_fragments := [] }

/-- Ordered dictionary lookup (Python `key in fragments_dict` /
`fragments_dict[key]`). -/
def dictFind (k : Nat × Nat × LabelVal) :
    List ((Nat × Nat × LabelVal) × (Nat × String)) → Option (Nat × String)
  | [] => none
  | (k', v) :: rest => if k' = k then some v else dictFind k rest

/-- Append an element to the last list of a list of lists
(`entities_fragments[-1].append(x)`). -/
def appendLast {α : Type} (ls : List (List α)) (x : α) : List (List α) :=
  ls.dropLast ++ [ls.getLastD [] ++ [x]]

/-- Process one fragment of the current entity (ner.py lines 193-208):
look the key up in the dict; on a hit, record the entity on the existing
slot and reuse the slot's fragment id; on a miss, allocate a new slot. -/
def processFragment (cfg : ForwardConfig) (e : Entity) (entity_idx : Nat)
    (fragment_idx : Nat) (f : EntityFragment) (st : ForwardState) :
    Except String ForwardState :=
  let fragment_id := e.entity_id ++ "/" ++ toString fragment_idx
  let key := fragmentKey cfg e f
  match dictFind key st.fragments_dict with
  | some (idx, fid) =>
    .ok { st with
      fragments_entities :=
        st.fragments_entities.set idx (st.fragments_entities.getD idx [] ++ [entity_idx])
      entities_fragments := appendLast st.entities_fragments fid }
  | none =>
    match storedFragmentLabel cfg e f with
    | .error msg => .error msg
    | .ok lab =>
      .ok { st with
        fragments_dict :=
          st.fragments_dict ++ [(key, (st.fragments_entities.length, fragment_id))]
        entities_fragments := appendLast st.entities_fragments fragment_id
        fragments_entities := st.fragments_entities ++ [[entity_idx]]
        fragments_begin := st.fragments_begin ++ [f.begin]
        fragments_end := st.fragments_end ++ [f.end_]
        fragments_label := st.fragments_label ++ [lab]
        fragments_id := st.fragments_id ++ [fragment_id] }

/-- Process the fragments of one entity front to back. -/
def processFragments (cfg : ForwardConfig) (e : Entity) (entity_idx : Nat) :
    Nat → List EntityFragment → ForwardState → Except String ForwardState
  | _, [], st => .ok st
  | fragment_idx, f :: fs, st =>
    match processFragment cfg e entity_idx fragment_idx f st with
    | .error msg => .error msg
    | .ok st' => processFragments cfg e entity_idx (fragment_idx + 1) fs st'

/-- Process one entity (ner.py lines 175-208): allocate its row, check the
label arity, then walk its fragments. -/
def processEntity (cfg : ForwardConfig) (e : Entity) (st : ForwardState) :
    Except String ForwardState :=
  let entity_idx := st.entities_label.length
  let st := { st with entities_fragments := st.entities_fragments ++ [[]] }
  match normalize_entity_label cfg e with
  | .error msg => .error msg
  | .ok lab =>
    processFragments cfg e entity_idx 0 e.fragments
      { st with entities_label := st.entities_label ++ [lab] }

/-- Process a list of entities in order. -/
def processEntities (cfg : ForwardConfig) :
    List Entity → ForwardState → Except String ForwardState
  | [], st => .ok st
  | e :: rest, st =>
    match processEntity cfg e st with
    | .error msg => .error msg
    | .ok st' => processEntities cfg rest st'

/-- The entity/fragment collection of one window: filter the entities, then
run the collection loop from the empty state. -/
def forward_collect (cfg : ForwardConfig) (entities : List Entity) :
    Except String ForwardState :=
  processEntities cfg (entities.filter (entityKept cfg)) ForwardState.initial

/-! ### C5: fragment deduplication -/

/-- One fragment occurrence: its dedup key and the index of the entity that
references it. -/
abbrev FragOcc : Type := (Nat × Nat × LabelVal) × Nat

/-- All fragment occurrences of an entity list in traversal order
(entity-major, fragment-minor), entity indices starting at `i0`. -/
def occListFrom (cfg : ForwardConfig) : Nat → List Entity → List FragOcc
  | _, [] => []
  | i0, e :: rest =>
    e.fragments.map (fun f => ((fragmentKey cfg e f, i0) : FragOcc))
      ++ occListFrom cfg (i0 + 1) rest

/-- A missing key is bound to no value. -/
theorem dictFind_eq_none {k : Nat × Nat × LabelVal}
    {d : List ((Nat × Nat × LabelVal) × (Nat × String))} (h : dictFind k d = none) :
    ∀ v, (k, v) ∉ d := by
  induction d with
  | nil => intro v hv; simp at hv
  | cons kv rest ih =>
    obtain ⟨k', v'⟩ := kv
    intro v hv
    rw [dictFind] at h
    by_cases hk : k' = k
    · rw [if_pos hk] at h; exact Option.noConfusion h
    · rw [if_neg hk] at h
      rcases List.mem_cons.mp hv with heq | hmem
      · exact hk (congrArg Prod.fst heq).symm
      · exact ih h v hmem

/-- A found binding is a member of the dictionary. -/
theorem dictFind_eq_some {k : Nat × Nat × LabelVal} {v : Nat × String}
    {d : List ((Nat × Nat × LabelVal) × (Nat × String))} (h : dictFind k d = some v) :
    (k, v) ∈ d := by
  induction d with
  | nil => simp [dictFind] at h
  | cons kv rest ih =>
    obtain ⟨k', v'⟩ := kv
    rw [dictFind] at h
    by_cases hk : k' = k
    · rw [if_pos hk] at h
      exact hk ▸ (Option.some.inj h ▸ List.mem_cons_self _ _)
    · rw [if_neg hk] at h
      exact List.mem_cons_of_mem _ (ih h)

/-- With pairwise-distinct keys, a key determines its binding. -/
theorem mem_dict_unique {k : Nat × Nat × LabelVal} {v v' : Nat × String}
    {d : List ((Nat × Nat × LabelVal) × (Nat × String))}
    (hnodup : (d.map Prod.fst).Nodup) (h1 : (k, v) ∈ d) (h2 : (k, v') ∈ d) : v = v' := by
  induction d with
  | nil => simp at h1
  | cons kv rest ih =>
    obtain ⟨k0, v0⟩ := kv
    simp only [List.map_cons, List.nodup_cons] at hnodup
    rcases List.mem_cons.mp h1 with he1 | hm1 <;> rcases List.mem_cons.mp h2 with he2 | hm2
    · have hv : v = v0 := congrArg Prod.snd he1
      have hv' : v' = v0 := congrArg Prod.snd he2
      rw [hv, hv']
    · have hk : k0 = k := (congrArg Prod.fst he1).symm
      have hmk : k ∈ List.map Prod.fst rest := List.mem_map_of_mem Prod.fst hm2
      rw [← hk] at hmk
      exact absurd hmk hnodup.1
    · have hk : k0 = k := (congrArg Prod.fst he2).symm
      have hmk : k ∈ List.map Prod.fst rest := List.mem_map_of_mem Prod.fst hm1
      rw [← hk] at hmk
      exact absurd hmk hnodup.1
    · exact ih hnodup.2 hm1 hm2

/-- When the dictionary's stored indices are `0, 1, 2, ...` in order, an
entry sits at the position given by its index. -/
theorem mem_dict_getElem {d : List ((Nat × Nat × LabelVal) × (Nat × String))}
    (hrange : d.map (fun p => p.2.1) = List.range d.length)
    {k : Nat × Nat × LabelVal} {i : Nat} {fid : String}
    (hmem : (k, (i, fid)) ∈ d) : d[i]? = some (k, (i, fid)) := by
  rcases List.mem_iff_getElem?.mp hmem with ⟨n, hn⟩
  have hmap : (d.map (fun p => p.2.1))[n]? = some i := by
    rw [List.getElem?_map, hn]; rfl
  rw [hrange] at hmap
  rw [List.getElem?_eq_some_iff] at hmap
  rcases hmap with ⟨hlt, hval⟩
  rw [List.getElem_range] at hval
  subst hval
  exact hn

/-- Two dictionary entries sharing the stored index are the same entry. -/
theorem mem_dict_idx_inj {d : List ((Nat × Nat × LabelVal) × (Nat × String))}
    (hrange : d.map (fun p => p.2.1) = List.range d.length)
    {k k' : Nat × Nat × LabelVal} {i : Nat} {fid fid' : String}
    (h1 : (k, (i, fid)) ∈ d) (h2 : (k', (i, fid')) ∈ d) : k = k' ∧ fid = fid' := by
  have e1 := mem_dict_getElem hrange h1
  have e2 := mem_dict_getElem hrange h2
  rw [e1] at e2
  have := Option.some.inj e2
  exact ⟨congrArg Prod.fst this, congrArg (fun p => p.2.2) this⟩

/-- An entry's stored index is within the dictionary's length. -/
theorem mem_dict_idx_lt {d : List ((Nat × Nat × LabelVal) × (Nat × String))}
    (hrange : d.map (fun p => p.2.1) = List.range d.length)
    {k : Nat × Nat × LabelVal} {i : Nat} {fid : String}
    (hmem : (k, (i, fid)) ∈ d) : i < d.length := by
  have := mem_dict_getElem hrange hmem
  rcases List.getElem?_eq_some_iff.mp this with ⟨h, _⟩
  exact h

/-- Invariant of the fragment-collection state after processing the
occurrence list `occs`: each dictionary entry owns slot `idx` (indices run
`0, 1, 2, ...` in insertion order), keys are never duplicated, a slot's
entity list records exactly the occurrences of its key in order, every
occurrence's key is in the dictionary, and the slot arrays carry the key's
span and the allocating occurrence's fragment id. -/
structure DedupInv (occs : List FragOcc) (st : ForwardState) : Prop where
  idx_range : st.fragments_dict.map (fun p => p.2.1) = List.range st.fragments_dict.length
  ents_len : st.fragments_entities.length = st.fragments_dict.length
  arr_lens : st.fragments_begin.length = st.fragments_dict.length
    ∧ st.fragments_end.length = st.fragments_dict.length
    ∧ st.fragments_id.length = st.fragments_dict.length
  keys_nodup : (st.fragments_dict.map Prod.fst).Nodup
  slots : ∀ k i fid, (k, (i, fid)) ∈ st.fragments_dict →
    st.fragments_entities[i]?
      = some ((occs.filter (fun o => decide (o.1 = k))).map (fun o => o.2))
  keys_complete : ∀ k, (∃ pr, (k, pr) ∈ st.fragments_dict) ↔ ∃ o ∈ occs, o.1 = k
  slot_content : ∀ k i fid, (k, (i, fid)) ∈ st.fragments_dict →
    st.fragments_begin[i]? = some k.1 ∧ st.fragments_end[i]? = some k.2.1
      ∧ st.fragments_id[i]? = some fid

/-- Processing one fragment extends the invariant by one occurrence and
leaves `entities_label` untouched. -/
theorem processFragment_inv (cfg : ForwardConfig) (e : Entity) (i fragment_idx : Nat)
    (f : EntityFragment) (st st' : ForwardState) (occs : List FragOcc)
    (hinv : DedupInv occs st)
    (h : processFragment cfg e i fragment_idx f st = .ok st') :
    DedupInv (occs ++ [(fragmentKey cfg e f, i)]) st'
      ∧ st'.entities_label = st.entities_label := by
  simp only [processFragment] at h
  split at h
  case h_2 hfind =>
    split at h
    case h_1 => exact absurd h (by simp)
    case h_2 lab hlab =>
      injection h with h'
      subst h'
      have hnotin := dictFind_eq_none hfind
      have hkeynot : fragmentKey cfg e f ∉ st.fragments_dict.map Prod.fst := by
        intro hk
        rcases List.mem_map.mp hk with ⟨⟨k0, v0⟩, hmem, hfst⟩
        exact hnotin v0 (by rwa [show k0 = fragmentKey cfg e f from hfst] at hmem)
      have hoccnot : ∀ o ∈ occs, ¬ o.1 = fragmentKey cfg e f := by
        intro o ho hk
        exact hkeynot (((hinv.keys_complete (fragmentKey cfg e f)).mpr ⟨o, ho, hk⟩).elim
          (fun pr hpr => List.mem_map_of_mem Prod.fst hpr))
      refine ⟨⟨?_, ?_, ?_, ?_, ?_, ?_, ?_⟩, rfl⟩
      · simp only [List.map_append, List.length_append]
        rw [hinv.idx_range, hinv.ents_len.symm]
        simp [List.range_succ, hinv.ents_len]
      · simp [hinv.ents_len]
      · simp [hinv.arr_lens.1, hinv.arr_lens.2.1, hinv.arr_lens.2.2]
      · simp only [List.map_append]
        refine List.Nodup.append hinv.keys_nodup (List.nodup_singleton _) ?_
        intro a ha hb
        rcases List.mem_singleton.mp (by simpa using hb) with rfl
        exact hkeynot ha
      · intro k j fjd hmem
        rcases List.mem_append.mp hmem with hold | hnew
        · have hjlt : j < st.fragments_entities.length := by
            rw [hinv.ents_len]; exact mem_dict_idx_lt hinv.idx_range hold
          rw [List.getElem?_append_left hjlt, hinv.slots k j fjd hold]
          have hkne : ¬ k = fragmentKey cfg e f := by
            intro hk
            exact hkeynot (hk ▸ List.mem_map_of_mem Prod.fst hold)
          have hkne2 : ¬ fragmentKey cfg e f = k := fun hh => hkne hh.symm
          rw [List.filter_append]
          simp [hkne, hkne2]
        · rcases List.mem_singleton.mp hnew with heq
          have hk : k = fragmentKey cfg e f := congrArg Prod.fst heq
          have hj : j = st.fragments_entities.length := congrArg (fun p => p.2.1) heq
          have hfd : fjd = e.entity_id ++ "/" ++ toString fragment_idx :=
            congrArg (fun p => p.2.2) heq
          subst hk hj hfd
          rw [List.getElem?_concat_length]
          have hfilter : occs.filter (fun o => decide (o.1 = fragmentKey cfg e f)) = [] :=
            List.filter_eq_nil_iff.mpr (fun o ho => by simpa using hoccnot o ho)
          rw [List.filter_append, hfilter]
          simp
      · intro k
        constructor
        · intro ⟨pr, hpr⟩
          rcases List.mem_append.mp hpr with hold | hnew
          · rcases (hinv.keys_complete k).mp ⟨pr, hold⟩ with ⟨o, ho, hk⟩
            exact ⟨o, List.mem_append_left _ ho, hk⟩
          · rcases List.mem_singleton.mp hnew with heq
            exact ⟨(fragmentKey cfg e f, i), List.mem_append_right _ (by simp),
              (congrArg Prod.fst heq).symm ▸ rfl⟩
        · intro ⟨o, ho, hk⟩
          rcases List.mem_append.mp ho with hold | hnew
          · rcases (hinv.keys_complete k).mpr ⟨o, hold, hk⟩ with ⟨pr, hpr⟩
            exact ⟨pr, List.mem_append_left _ hpr⟩
          · rcases List.mem_singleton.mp hnew with heq
            refine ⟨(st.fragments_entities.length, e.entity_id ++ "/" ++ toString fragment_idx),
              List.mem_append_right _ ?_⟩
            rw [← hk, heq]
            simp
      · intro k j fjd hmem
        rcases List.mem_append.mp hmem with hold | hnew
        · have hc := hinv.slot_content k j fjd hold
          have hjlt := mem_dict_idx_lt hinv.idx_range hold
          rw [List.getElem?_append_left (hinv.arr_lens.1 ▸ hjlt),
            List.getElem?_append_left (hinv.arr_lens.2.1 ▸ hjlt),
            List.getElem?_append_left (hinv.arr_lens.2.2 ▸ hjlt)]
          exact hc
        · rcases List.mem_singleton.mp hnew with heq
          have hk : k = fragmentKey cfg e f := congrArg Prod.fst heq
          have hj : j = st.fragments_entities.length := congrArg (fun p => p.2.1) heq
          have hfd : fjd = e.entity_id ++ "/" ++ toString fragment_idx :=
            congrArg (fun p => p.2.2) heq
          subst hk hj hfd
          refine ⟨?_, ?_, ?_⟩
          · rw [hinv.ents_len, ← hinv.arr_lens.1, List.getElem?_concat_length]; rfl
          · rw [hinv.ents_len, ← hinv.arr_lens.2.1, List.getElem?_concat_length]; rfl
          · rw [hinv.ents_len, ← hinv.arr_lens.2.2, List.getElem?_concat_length]
  case h_1 idx fid hfind =>
    injection h with h'
    subst h'
    have hkmem := dictFind_eq_some hfind
    have hidxlt : idx < st.fragments_entities.length := by
      rw [hinv.ents_len]; exact mem_dict_idx_lt hinv.idx_range hkmem
    refine ⟨⟨hinv.idx_range, ?_, hinv.arr_lens, hinv.keys_nodup, ?_, ?_, hinv.slot_content⟩, rfl⟩
    · rw [List.length_set]; exact hinv.ents_len
    · intro k j fjd hmem
      by_cases hk : k = fragmentKey cfg e f
      · subst hk
        have huniq := mem_dict_unique hinv.keys_nodup hmem hkmem
        have hj : j = idx := congrArg Prod.fst huniq
        have hold := hinv.slots _ j fjd hmem
        have hgetD : st.fragments_entities.getD idx []
            = (occs.filter
                (fun o => decide (o.1 = fragmentKey cfg e f))).map (fun o => o.2) := by
          rw [List.getD_eq_getElem?_getD, ← hj, hold]; rfl
        rw [hj, List.getElem?_set_self hidxlt, hgetD, List.filter_append]
        simp
      · have hj : ¬ j = idx := by
          intro hj
          rw [hj] at hmem
          exact hk (mem_dict_idx_inj hinv.idx_range hmem hkmem).1
        have hkne2 : ¬ (fragmentKey cfg e f) = k := fun hh => hk hh.symm
        rw [List.getElem?_set_ne (fun hh => hj hh.symm), hinv.slots k j fjd hmem,
          List.filter_append]
        simp [hkne2]
    · intro k
      rw [hinv.keys_complete k]
      constructor
      · intro hex
        rcases hex with ⟨o, ho, hk⟩
        exact ⟨o, List.mem_append_left _ ho, hk⟩
      · intro hex
        rcases hex with ⟨o, ho, hk⟩
        rcases List.mem_append.mp ho with hold | hnew
        · exact ⟨o, hold, hk⟩
        · rcases List.mem_singleton.mp hnew with heq
          have hok : (fragmentKey cfg e f) = k := by rw [heq] at hk; exact hk
          rcases (hinv.keys_complete (fragmentKey cfg e f)).mp ⟨(idx, fid), hkmem⟩
            with ⟨o', ho', hk'⟩
          exact ⟨o', ho', by rw [hk', hok]⟩

/-- Walking a fragment list extends the invariant by that list's
occurrences. -/
theorem processFragments_inv (cfg : ForwardConfig) (e : Entity) (i : Nat) :
    ∀ (fs : List EntityFragment) (fragment_idx : Nat) (st st' : ForwardState)
      (occs : List FragOcc), DedupInv occs st →
      processFragments cfg e i fragment_idx fs st = .ok st' →
      DedupInv (occs ++ fs.map (fun f => ((fragmentKey cfg e f, i) : FragOcc))) st'
        ∧ st'.entities_label = st.entities_label := by
  intro fs
  induction fs with
  | nil =>
    intro fragment_idx st st' occs hinv h
    simp only [processFragments] at h
    injection h with h'
    subst h'
    rw [List.map_nil, List.append_nil]
    exact ⟨hinv, rfl⟩
  | cons f fs ih =>
    intro fragment_idx st st' occs hinv h
    simp only [processFragments] at h
    split at h
    · exact absurd h (by simp)
    case h_2 st1 hstep =>
      have h1 := processFragment_inv cfg e i fragment_idx f st st1 occs hinv hstep
      have h2 := ih (fragment_idx + 1) st1 st' _ h1.1 h
      refine ⟨?_, h2.2.trans h1.2⟩
      rw [List.map_cons, ← List.singleton_append, ← List.append_assoc]
      exact h2.1

/-- Processing one entity extends the invariant by its fragments'
occurrences at the entity's index, and grows `entities_label` by one. -/
theorem processEntity_inv (cfg : ForwardConfig) (e : Entity) (st st' : ForwardState)
    (occs : List FragOcc) (hinv : DedupInv occs st)
    (h : processEntity cfg e st = .ok st') :
    DedupInv (occs ++ e.fragments.map
        (fun f => ((fragmentKey cfg e f, st.entities_label.length) : FragOcc))) st'
      ∧ st'.entities_label.length = st.entities_label.length + 1 := by
  simp only [processEntity] at h
  split at h
  · exact absurd h (by simp)
  case h_2 lab hlab =>
    have hinv2 : DedupInv occs
        { st with entities_fragments := st.entities_fragments ++ [[]],
                  entities_label := st.entities_label ++ [lab] } :=
      ⟨hinv.idx_range, hinv.ents_len, hinv.arr_lens, hinv.keys_nodup, hinv.slots,
        hinv.keys_complete, hinv.slot_content⟩
    have hmain := processFragments_inv cfg e st.entities_label.length e.fragments 0
      _ st' occs hinv2 h
    refine ⟨hmain.1, ?_⟩
    rw [hmain.2]
    simp

/-- Processing an entity list extends the invariant by all its occurrences,
indexed from the current entity count. -/
theorem processEntities_inv (cfg : ForwardConfig) :
    ∀ (ents : List Entity) (st st' : ForwardState) (occs : List FragOcc),
      DedupInv occs st →
      processEntities cfg ents st = .ok st' →
      DedupInv (occs ++ occListFrom cfg st.entities_label.length ents) st'
        ∧ st'.entities_label.length = st.entities_label.length + ents.length := by
  intro ents
  induction ents with
  | nil =>
    intro st st' occs hinv h
    simp only [processEntities] at h
    injection h with h'
    subst h'
    rw [occListFrom, List.append_nil]
    exact ⟨hinv, rfl⟩
  | cons e rest ih =>
    intro st st' occs hinv h
    simp only [processEntities] at h
    split at h
    · exact absurd h (by simp)
    case h_2 st1 hstep =>
      have h1 := processEntity_inv cfg e st st1 occs hinv hstep
      have h2 := ih st1 st' _ h1.1 h
      rw [h1.2] at h2
      constructor
      · rw [occListFrom, ← List.append_assoc]
        exact h2.1
      · rw [h2.2, List.length_cons]
        omega

/-- C5: in the window's fragment collection, fragments are deduplicated by
the key `(begin, end, label)` across all entities: keys are never duplicated
(one slot per key), each slot's entity list records exactly the occurrences
of its key across the entity traversal in order (the first occurrence
allocates the slot, whose arrays carry the fragment's span and the first
occurrence's fragment id; each later occurrence appends its entity), and
every occurring key owns a slot. -/
theorem fragment_dedup (cfg : ForwardConfig) (entities : List Entity)
    (st : ForwardState) (h : forward_collect cfg entities = .ok st) :
    (st.fragments_dict.map Prod.fst).Nodup
    ∧ (∀ k i fid, (k, (i, fid)) ∈ st.fragments_dict →
        st.fragments_entities[i]?
          = some (((occListFrom cfg 0 (entities.filter (entityKept cfg))).filter
              (fun o => decide (o.1 = k))).map (fun o => o.2))
        ∧ st.fragments_begin[i]? = some k.1 ∧ st.fragments_end[i]? = some k.2.1
        ∧ st.fragments_id[i]? = some fid)
    ∧ (∀ k, (∃ pr, (k, pr) ∈ st.fragments_dict)
        ↔ ∃ o ∈ occListFrom cfg 0 (entities.filter (entityKept cfg)), o.1 = k) := by
  have hinit : DedupInv [] ForwardState.initial := by
    refine ⟨rfl, rfl, ⟨rfl, rfl, rfl⟩, List.nodup_nil, ?_, ?_, ?_⟩
    · intro k i fid hmem; simp [ForwardState.initial] at hmem
    · intro k; simp [ForwardState.initial]
    · intro k i fid hmem; simp [ForwardState.initial] at hmem
  have hmain := processEntities_inv cfg (entities.filter (entityKept cfg))
    ForwardState.initial st [] hinit h
  rw [List.nil_append] at hmain
  have hocc : occListFrom cfg (ForwardState.initial.entities_label.length)
      (entities.filter (entityKept cfg))
      = occListFrom cfg 0 (entities.filter (entityKept cfg)) := rfl
  rw [hocc] at hmain
  exact ⟨hmain.1.keys_nodup,
    fun k i fid hmem => ⟨hmain.1.slots k i fid hmem,
      (hmain.1.slot_content k i fid hmem).1, (hmain.1.slot_content k i fid hmem).2.1,
      (hmain.1.slot_content k i fid hmem).2.2⟩,
    hmain.1.keys_complete⟩

/-- Configuration of the dedup scenario: single-label mode, fragment labels
inherited from the entity, no filter. -/
def c5_cfg : ForwardConfig :=
  { multi_label := false, fragment_label_is_entity_label := true, filter_entities := none }

/-- First entity sharing the fragment `(0, 5)` labelled `PER`. -/
def c5_entA : Entity :=
  { entity_id := "A", label := .single "PER", fragments := [{ begin := 0, end_ := 5, label := none }] }

/-- Second entity sharing the identical fragment. -/
def c5_entB : Entity :=
  { entity_id := "B", label := .single "PER", fragments := [{ begin := 0, end_ := 5, label := none }] }

/-- The collection state produced for the two sharing entities: one slot,
referenced by both entities, both reusing the first occurrence's id. -/
def c5_st : ForwardState :=
  { fragments_dict := [((0, 5, LabelVal.single "PER"), 0, "A/0")]
    fragments_begin := [0]
    fragments_end := [5]
    fragments_label := [LabelVal.single "PER"]
    fragments_id := ["A/0"]
    fragments_entities := [[0, 1]]
    entities_label := [LabelVal.single "PER", LabelVal.single "PER"]
    entities_fragments := [["A/0"], ["A/0"]] }

/-- Witness for C5: two entities sharing an identical `(begin, end, label)`
fragment produce exactly one slot, referenced by both entities (entity list
`[0, 1]`), with no duplicated key. -/
theorem fragment_dedup_witness :
    c5_st.fragments_entities[0]? = some [0, 1]
    ∧ (c5_st.fragments_dict.map Prod.fst).Nodup :=
  ⟨((fragment_dedup c5_cfg [c5_entA, c5_entB] c5_st rfl).2.1
      (0, 5, LabelVal.single "PER") 0 "A/0" (by decide)).1,
    (fragment_dedup c5_cfg [c5_entA, c5_entB] c5_st rfl).1⟩

/-! ### C9: label arity -/

/-- Multi-label configuration for the arity check. -/
def c9_cfg : ForwardConfig :=
  { multi_label := true, fragment_label_is_entity_label := true, filter_entities := none }

/-- An entity declaring one single (non-list) label. -/
def c9_ent : Entity :=
  { entity_id := "E1", label := .single "PER",
    fragments := [{ begin := 0, end_ := 3, label := none }] }

/-- The state produced for the single-label entity under multi-label mode:
processing succeeds, the label silently coerced to the list `["PER"]`. -/
def c9_st : ForwardState :=
  { fragments_dict := [((0, 3, LabelVal.single "main"), 0, "E1/0")]
    fragments_begin := [0]
    fragments_end := [3]
    fragments_label := [LabelVal.single "PER"]
    fragments_id := ["E1/0"]
    fragments_entities := [[0]]
    entities_label := [LabelVal.multi ["PER"]]
    entities_fragments := [["E1/0"]] }

/-- Counterexample to C9: an entity declaring a single label while
multi-label mode is configured does NOT fail — `forward` wraps the label
into a one-element list and succeeds (ner.py lines 180-181). -/
theorem label_arity_counterexample : forward_collect c9_cfg [c9_ent] = .ok c9_st := rfl

/-- C9 (amended): the label-arity check is fatal in one direction only: an
entity declaring multiple labels while single-label mode is configured fails
with the label-arity error (also aborting the entity's processing), while an
entity declaring a single label in multi-label mode is accepted with its
label coerced to a one-element list. -/
theorem label_arity_amended (cfg : ForwardConfig) (e : Entity) :
    (cfg.multi_label = false → ∀ ls, e.label = .multi ls →
      normalize_entity_label cfg e
        = .error ("Entity " ++ e.entity_id
            ++ " has multiple labels but multi_label parameter is False")
      ∧ ∀ st, processEntity cfg e st
        = .error ("Entity " ++ e.entity_id
            ++ " has multiple labels but multi_label parameter is False"))
    ∧ (cfg.multi_label = true → ∀ s, e.label = .single s →
      normalize_entity_label cfg e = .ok (.multi [s])) := by
  constructor
  · intro hm ls hl
    constructor
    · simp [normalize_entity_label, hm, hl]
    · intro st
      simp [processEntity, normalize_entity_label, hm, hl]
  · intro hm s hl
    simp [normalize_entity_label, hm, hl]

/-- Witness for C9 (amended): a two-label entity in single-label mode fails
with the arity error; the single-label entity in multi-label mode is
normalised to a one-element list. -/
theorem label_arity_amended_witness :
    normalize_entity_label
        { multi_label := false, fragment_label_is_entity_label := true,
          filter_entities := none }
        { entity_id := "E2", label := .multi ["PER", "LOC"], fragments := [] }
      = .error "Entity E2 has multiple labels but multi_label parameter is False"
    ∧ normalize_entity_label c9_cfg c9_ent = .ok (.multi ["PER"]) :=
  ⟨((label_arity_amended
      { multi_label := false, fragment_label_is_entity_label := true,
        filter_entities := none }
      { entity_id := "E2", label := .multi ["PER", "LOC"], fragments := [] }).1
    rfl ["PER", "LOC"] rfl).1,
  (label_arity_amended c9_cfg c9_ent).2 rfl "PER" rfl⟩

/-! ### C7: empty-fragment policy -/

/-- Result of the empty-fragment handling (ner.py lines 217-230): the
word-index fragment arrays (`-1` rows removed under `drop`) and whether a
warning was recorded. -/
structure EmptyPolicyResult where
  fragments_begin : List Int
  fragments_end : List Int
  fragments_label : List LabelVal
  fragments_id : List String
  fragments_entities : List (List Nat)
  warned : Bool
  deriving Repr, DecidableEq

/-- The error raised for a fragment matching no word (ner.py lines 221-223),
naming the offending fragment id. -/
def emptyFragmentMessage (doc_id frag_id : String) : String :=
  "Entity " ++ doc_id ++ "/" ++ frag_id
    ++ " could not be matched with any word (is it empty or outside the text ?)."
    ++ " Use empty_entities=\x27drop\x27 to ignore these cases"

/-- Embedding of ner.py lines 217-230: map the fragments' character spans
onto word indices; when some fragment maps to no word (`-1`), raise under
`empty_entities = "raise"`, else drop all `-1` rows with a warning. -/
def applyEmptyPolicy (empty_entities : String) (doc_id : String)
    (fragments_begin fragments_end : List Nat) (fragments_label : List LabelVal)
    (fragments_id : List String) (fragments_entities : List (List Nat))
    (words_begin words_end : List Nat) : Except String EmptyPolicyResult :=
  let fs := split_spans fragments_begin fragments_end words_begin words_end
  match (fs.1.enum).find? (fun p => decide (p.2 = -1)) with
  | some p =>
    if empty_entities = "raise" then
      .error (emptyFragmentMessage doc_id (fragments_id.getD p.1 ""))
    else
      let keep := fs.1.map (fun x => decide (x ≠ -1))
      .ok { fragments_begin := fs.1.filter (fun x => decide (x ≠ -1))
            fragments_end := maskFilter keep fs.2
            fragments_label := maskFilter keep fragments_label
            fragments_id := maskFilter keep fragments_id
            fragments_entities := maskFilter keep fragments_entities
            warned := true }
  | none =>
    .ok { fragments_begin := fs.1, fragments_end := fs.2
          fragments_label := fragments_label, fragments_id := fragments_id
          fragments_entities := fragments_entities, warned := false }

/-- Membership in a mask-filtered list comes from a position where the mask
holds. -/
theorem mem_maskFilter {α : Type} (x : α) :
    ∀ (mask : List Bool) (l : List α), x ∈ maskFilter mask l →
      ∃ i : Nat, mask[i]? = some true ∧ l[i]? = some x := by
  intro mask
  induction mask with
  | nil => intro l h; simp [maskFilter] at h
  | cons b mask ih =>
    intro l h
    cases l with
    | nil => simp [maskFilter] at h
    | cons y l =>
      by_cases hb : b = true
      · subst hb
        simp only [maskFilter, List.zip_cons_cons, List.filter_cons, decide_eq_true_eq,
          if_pos, List.map_cons] at h
        rcases List.mem_cons.mp h with rfl | hrest
        · exact ⟨0, by simp, by simp⟩
        · rcases ih l (by simpa [maskFilter] using hrest) with ⟨i, h1, h2⟩
          exact ⟨i + 1, by simpa using h1, by simpa using h2⟩
      · have hb' : b = false := Bool.eq_false_iff.mpr hb
        subst hb'
        simp only [maskFilter, List.zip_cons_cons, List.filter_cons] at h
        rw [if_neg (by simp)] at h
        rcases ih l (by simpa [maskFilter] using h) with ⟨i, h1, h2⟩
        exact ⟨i + 1, by simpa using h1, by simpa using h2⟩

/-- C7: when a fragment's character span maps to no word (the span mapper
returns `-1` at position `j`), `empty_entities = "drop"` removes the
offending rows from the fragment arrays with a warning and no exception
(no `-1` row survives, and the dropped fragment's id is gone when ids are
distinct), while `empty_entities = "raise"` fails with an error naming the
first offending fragment id. -/
theorem empty_fragment_policy (doc_id : String)
    (fragments_begin fragments_end : List Nat) (fragments_label : List LabelVal)
    (fragments_id : List String) (fragments_entities : List (List Nat))
    (words_begin words_end : List Nat) (j : Nat)
    (hj : (split_spans fragments_begin fragments_end words_begin words_end).1[j]?
      = some (-1)) :
    (∃ out, applyEmptyPolicy "drop" doc_id fragments_begin fragments_end fragments_label
        fragments_id fragments_entities words_begin words_end = .ok out
      ∧ out.warned = true
      ∧ (∀ x ∈ out.fragments_begin, ¬ x = -1)
      ∧ (fragments_id.Nodup → ∀ y, fragments_id[j]? = some y →
          y ∉ out.fragments_id))
    ∧ (∃ j0, (split_spans fragments_begin fragments_end words_begin words_end).1[j0]?
        = some (-1)
      ∧ applyEmptyPolicy "raise" doc_id fragments_begin fragments_end fragments_label
          fragments_id fragments_entities words_begin words_end
        = .error (emptyFragmentMessage doc_id (fragments_id.getD j0 ""))) := by
  have hmem : ((j, (-1 : Int)))
      ∈ (split_spans fragments_begin fragments_end words_begin words_end).1.enum := by
    rw [List.mem_enum_iff_getElem?]
    exact hj
  have hsome : (((split_spans fragments_begin fragments_end words_begin
      words_end).1.enum).find? (fun p => decide (p.2 = -1))).isSome := by
    rw [List.find?_isSome]
    exact ⟨(j, -1), hmem, by simp⟩
  rcases Option.isSome_iff_exists.mp hsome with ⟨p, hp⟩
  have hpred := List.find?_some hp
  have hpmem := List.mem_of_find?_eq_some hp
  have hpneg : (split_spans fragments_begin fragments_end words_begin
      words_end).1[p.1]? = some (-1) := by
    rw [List.mem_enum_iff_getElem?] at hpmem
    simpa [show p.2 = (-1 : Int) by simpa using hpred] using hpmem
  constructor
  · simp only [applyEmptyPolicy, hp,
      show (("drop" : String) = "raise") = False from eq_false (by decide), if_false]
    refine ⟨_, rfl, rfl, ?_, ?_⟩
    · intro x hx
      have := List.mem_filter.mp hx
      simpa using this.2
    · intro hnodup y hy hmemid
      rcases mem_maskFilter _ _ _ hmemid with ⟨i, hkeep, hid⟩
      have hkeepj : ((split_spans fragments_begin fragments_end words_begin
          words_end).1.map (fun x => decide (x ≠ -1)))[j]? = some false := by
        rw [List.getElem?_map, hj]
        rfl
      have hij : ¬ i = j := by
        intro hij
        rw [hij, hkeepj] at hkeep
        exact Bool.false_ne_true (Option.some.inj hkeep)
      have hilt : i < fragments_id.length := by
        rcases List.getElem?_eq_some_iff.mp hid with ⟨h, _⟩
        exact h
      exact hij (List.getElem?_inj hilt hnodup (hid.trans hy.symm))
  · refine ⟨p.1, hpneg, ?_⟩
    simp only [applyEmptyPolicy, hp,
      show (("raise" : String) = "raise") = True from eq_true rfl, if_true]

/-- Witness for C7: a zero-length fragment at character offsets `(5, 5)`
maps to no word; under `drop` it is excluded with a warning, under `raise`
the run fails with the error naming fragment `E1/0`. -/
theorem empty_fragment_policy_witness :
    (∃ out, applyEmptyPolicy "drop" "D1" [5] [5] [LabelVal.single "PER"] ["E1/0"] [[0]]
        [0, 4, 6] [4, 6, 9] = .ok out
      ∧ out.warned = true
      ∧ (∀ x ∈ out.fragments_begin, ¬ x = -1)
      ∧ (["E1/0"].Nodup → ∀ y, (["E1/0"] : List String)[0]? = some y →
          y ∉ out.fragments_id))
    ∧ (∃ j0, (split_spans [5] [5] [0, 4, 6] [4, 6, 9]).1[j0]? = some (-1)
      ∧ applyEmptyPolicy "raise" "D1" [5] [5] [LabelVal.single "PER"] ["E1/0"] [[0]]
          [0, 4, 6] [4, 6, 9]
        = .error (emptyFragmentMessage "D1" (["E1/0"].getD j0 ""))) :=
  empty_fragment_policy "D1" [5] [5] [LabelVal.single "PER"] ["E1/0"] [[0]]
    [0, 4, 6] [4, 6, 9] 0 (by decide)

/-! ### C6: coarse tag scheme (`MarginalTagLoss.forward`) -/

/-- Tag state `Outside` (ner.py line 543: `O, I, B, L, U = 0, 1, 2, 3, 4`). -/
def O : Nat := 0
/-- Tag state `Inside`. -/
def I : Nat := 1
/-- Tag state `Begin`. -/
def B : Nat := 2
/-- Tag state `Last`. -/
def L : Nat := 3
/-- Tag state `Unit`. -/
def U : Nat := 4

/-- One unmasked fragment row consumed by `MarginalTagLoss.forward`:
word-index begin `b`, inclusive word-index end `e`, label index `l`. -/
structure TagFragment where
  b : Nat
  e : Nat
  l : Nat
  deriving Repr, DecidableEq

/-- Point assignment into a per-label per-word tensor
(`tags[l, w] = v`). -/
def gridSet (g : Nat → Nat → Nat) (l w v : Nat) : Nat → Nat → Nat :=
  fun lq wq => if lq = l ∧ wq = w then v else g lq wq

/-- Slice assignment `tags[l, b:e+1] = v`. -/
def gridSetRange (g : Nat → Nat → Nat) (l b e v : Nat) : Nat → Nat → Nat :=
  fun lq wq => if lq = l ∧ b ≤ wq ∧ wq ≤ e then v else g lq wq

/-- One iteration of the fragment loop of ner.py lines 552-558: a multi-word
fragment writes `I` over its span into the `i` buffer and `B`/`L` at its
endpoints into the shared `bl` buffer (in that order); a single-word
fragment writes `U` into the `u` buffer. -/
def tagStep (acc : (Nat → Nat → Nat) × (Nat → Nat → Nat) × (Nat → Nat → Nat))
    (f : TagFragment) :
    (Nat → Nat → Nat) × (Nat → Nat → Nat) × (Nat → Nat → Nat) :=
  if f.b < f.e then
    (gridSetRange acc.1 f.l f.b f.e I,
      gridSet (gridSet acc.2.1 f.l f.b B) f.l f.e L,
      acc.2.2)
  else
    (acc.1, acc.2.1, gridSet acc.2.2 f.l f.b U)

/-- Embedding of the tag construction of `MarginalTagLoss.forward`
(ner.py lines 548-559): run the fragment loop over zero-initialised
`i`/`bl`/`u` buffers, then resolve by pointwise maximum. -/
def buildTags (frags : List TagFragment) : Nat → Nat → Nat :=
  fun l w =>
    let r := frags.foldl tagStep (fun _ _ => 0, fun _ _ => 0, fun _ _ => 0)
    max (max (r.1 l w) (r.2.1 l w)) (r.2.2 l w)

/-- The state a fragment assigns to word `w` of label `l` according to the
claim's words: first word `Begin`, last word `Last`, interior `Inside` for a
multi-word fragment; `Unit` for a single-word fragment; `Outside`
otherwise. -/
def claimStateAt (f : TagFragment) (l w : Nat) : Nat :=
  if f.l = l then
    if f.b < f.e then
      if w = f.b then B
      else if w = f.e then L
      else if f.b ≤ w ∧ w ≤ f.e then I
      else O
    else if w = f.b then U else O
  else O

/-- The claim's resolution rule: the numerically highest state among all
fragments' assignments wins. -/
def claimTags (frags : List TagFragment) (l w : Nat) : Nat :=
  frags.foldl (fun acc f => max acc (claimStateAt f l w)) O

/-- Counterexample to C6: fragments `(0,2)` and `(2,4)` of the same label
(in the preprocessor's `(label, begin, end)` order) disagree on word 2:
fragment one assigns `Last(3)`, fragment two assigns `Begin(2)`.  The claim
says the higher precedence (`Last`) wins, but the code stores `B` and `L` in
one shared buffer where the later write wins, so word 2 resolves to
`Begin(2)`. -/
theorem tag_precedence_counterexample :
    buildTags [⟨0, 2, 0⟩, ⟨2, 4, 0⟩] 0 2 = B
    ∧ claimTags [⟨0, 2, 0⟩, ⟨2, 4, 0⟩] 0 2 = L
    ∧ ¬ buildTags [⟨0, 2, 0⟩, ⟨2, 4, 0⟩] 0 2
        = claimTags [⟨0, 2, 0⟩, ⟨2, 4, 0⟩] 0 2 := by
  refine ⟨rfl, rfl, ?_⟩
  intro h
  exact absurd h (by decide)

/-- Whether any fragment covers `(l, w)` with a multi-word span. -/
def iAny (frags : List TagFragment) (l w : Nat) : Nat :=
  if frags.any (fun f => decide (f.l = l) && decide (f.b < f.e)
      && decide (f.b ≤ w) && decide (w ≤ f.e)) then I else O

/-- The final value of the shared `B`/`L` buffer at `(l, w)` starting from
`a`: the last fragment writing at this cell wins. -/
def blFrom (a : Nat) (frags : List TagFragment) (l w : Nat) : Nat :=
  frags.foldl (fun acc f =>
    if f.l = l ∧ f.b < f.e ∧ w = f.b then B
    else if f.l = l ∧ f.b < f.e ∧ w = f.e then L
    else acc) a

/-- Whether any single-word fragment sits at `(l, w)`. -/
def uAny (frags : List TagFragment) (l w : Nat) : Nat :=
  if frags.any (fun f => decide (f.l = l) && !decide (f.b < f.e)
      && decide (w = f.b)) then U else O

/-- Unfolding `blFrom` over a cons. -/
theorem blFrom_cons (a : Nat) (f : TagFragment) (fs : List TagFragment) (l w : Nat) :
    blFrom a (f :: fs) l w
      = blFrom (if f.l = l ∧ f.b < f.e ∧ w = f.b then B
          else if f.l = l ∧ f.b < f.e ∧ w = f.e then L else a) fs l w := rfl

/-- The fragment fold computed cellwise, for arbitrary initial buffers. -/
theorem tagFold_spec (l w : Nat) :
    ∀ (frags : List TagFragment) (gi gbl gu : Nat → Nat → Nat),
      ((frags.foldl tagStep (gi, gbl, gu)).1 l w
        = if frags.any (fun f => decide (f.l = l) && decide (f.b < f.e)
            && decide (f.b ≤ w) && decide (w ≤ f.e)) then I else gi l w)
      ∧ ((frags.foldl tagStep (gi, gbl, gu)).2.1 l w = blFrom (gbl l w) frags l w)
      ∧ ((frags.foldl tagStep (gi, gbl, gu)).2.2 l w
        = if frags.any (fun f => decide (f.l = l) && !decide (f.b < f.e)
            && decide (w = f.b)) then U else gu l w) := by
  intro frags
  induction frags with
  | nil => intro gi gbl gu; exact ⟨rfl, rfl, rfl⟩
  | cons f fs ih =>
    intro gi gbl gu
    rw [List.foldl_cons]
    by_cases hb : f.b < f.e
    · have hstep : tagStep (gi, gbl, gu) f
          = (gridSetRange gi f.l f.b f.e I,
              gridSet (gridSet gbl f.l f.b B) f.l f.e L, gu) := by
        simp [tagStep, hb]
      rw [hstep]
      rcases ih (gridSetRange gi f.l f.b f.e I)
        (gridSet (gridSet gbl f.l f.b B) f.l f.e L) gu with ⟨ih1, ih2, ih3⟩
      refine ⟨?_, ?_, ?_⟩
      · rw [ih1, List.any_cons]
        by_cases hcov : (decide (f.l = l) && decide (f.b < f.e)
            && decide (f.b ≤ w) && decide (w ≤ f.e)) = true
        · have hc : l = f.l ∧ f.b ≤ w ∧ w ≤ f.e := by
            simp only [Bool.and_eq_true, decide_eq_true_eq] at hcov
            exact ⟨hcov.1.1.1.symm, hcov.1.2, hcov.2⟩
          by_cases hrest : (fs.any fun f => decide (f.l = l) && decide (f.b < f.e)
              && decide (f.b ≤ w) && decide (w ≤ f.e)) = true
          · rw [if_pos hrest, hcov, Bool.true_or, if_pos rfl]
          · rw [if_neg hrest, hcov, Bool.true_or, if_pos rfl]
            simp only [gridSetRange]
            rw [if_pos hc]
        · have hnc : ¬ (l = f.l ∧ f.b ≤ w ∧ w ≤ f.e) := by
            intro hand
            exact hcov (by
              simp only [Bool.and_eq_true, decide_eq_true_eq]
              exact ⟨⟨⟨hand.1.symm, hb⟩, hand.2.1⟩, hand.2.2⟩)
          by_cases hrest : (fs.any fun f => decide (f.l = l) && decide (f.b < f.e)
              && decide (f.b ≤ w) && decide (w ≤ f.e)) = true
          · rw [if_pos hrest, Bool.eq_false_iff.mpr hcov, Bool.false_or, if_pos hrest]
          · rw [if_neg hrest, Bool.eq_false_iff.mpr hcov, Bool.false_or, if_neg hrest]
            simp only [gridSetRange]
            rw [if_neg hnc]
      · rw [ih2, blFrom_cons]
        have hXY : (gridSet (gridSet gbl f.l f.b B) f.l f.e L) l w
            = (if f.l = l ∧ f.b < f.e ∧ w = f.b then B
               else if f.l = l ∧ f.b < f.e ∧ w = f.e then L else gbl l w) := by
          by_cases hl : l = f.l
          · by_cases hwb : w = f.b
            · have hwe : ¬ w = f.e := by
                intro hwe
                rw [← hwb, ← hwe] at hb
                exact Nat.lt_irrefl w hb
              rw [gridSet, gridSet, if_neg (fun hand => hwe hand.2), if_pos ⟨hl, hwb⟩,
                if_pos ⟨hl.symm, hb, hwb⟩]
            · by_cases hwe : w = f.e
              · rw [gridSet, if_pos ⟨hl, hwe⟩, if_neg (fun hand => hwb hand.2.2),
                  if_pos ⟨hl.symm, hb, hwe⟩]
              · rw [gridSet, gridSet, if_neg (fun hand => hwe hand.2),
                  if_neg (fun hand => hwb hand.2),
                  if_neg (fun hand => hwb hand.2.2), if_neg (fun hand => hwe hand.2.2)]
          · rw [gridSet, gridSet, if_neg (fun hand => hl hand.1),
              if_neg (fun hand => hl hand.1),
              if_neg (fun hand => hl hand.1.symm), if_neg (fun hand => hl hand.1.symm)]
        rw [hXY]
      · rw [ih3, List.any_cons]
        have hf : (decide (f.l = l) && !decide (f.b < f.e) && decide (w = f.b)) = false := by
          simp [hb]
        rw [hf]
        simp only [Bool.false_or]
    · have hstep : tagStep (gi, gbl, gu) f = (gi, gbl, gridSet gu f.l f.b U) := by
        simp [tagStep, hb]
      rw [hstep]
      rcases ih gi gbl (gridSet gu f.l f.b U) with ⟨ih1, ih2, ih3⟩
      refine ⟨?_, ?_, ?_⟩
      · rw [ih1, List.any_cons]
        have hf : (decide (f.l = l) && decide (f.b < f.e) && decide (f.b ≤ w)
            && decide (w ≤ f.e)) = false := by
          simp [hb]
        rw [hf]
        simp only [Bool.false_or]
      · rw [ih2, blFrom_cons]
        have hXY : gbl l w = (if f.l = l ∧ f.b < f.e ∧ w = f.b then B
            else if f.l = l ∧ f.b < f.e ∧ w = f.e then L else gbl l w) := by
          rw [if_neg (fun hand => hb hand.2.1), if_neg (fun hand => hb hand.2.1)]
        rw [← hXY]
      · rw [ih3, List.any_cons]
        by_cases hu : (decide (f.l = l) && !decide (f.b < f.e) && decide (w = f.b)) = true
        · have hc : l = f.l ∧ w = f.b := by
            simp only [Bool.and_eq_true, Bool.not_eq_eq_eq_not, Bool.not_true,
              decide_eq_true_eq, decide_eq_false_iff_not] at hu
            exact ⟨hu.1.1.symm, hu.2⟩
          by_cases hrest : (fs.any fun f => decide (f.l = l) && !decide (f.b < f.e)
              && decide (w = f.b)) = true
          · rw [if_pos hrest, hu, Bool.true_or, if_pos rfl]
          · rw [if_neg hrest, hu, Bool.true_or, if_pos rfl]
            simp only [gridSet]
            rw [if_pos hc]
        · have hnc : ¬ (l = f.l ∧ w = f.b) := by
            intro hand
            exact hu (by
              simp only [Bool.and_eq_true, Bool.not_eq_eq_eq_not, Bool.not_true,
                decide_eq_true_eq, decide_eq_false_iff_not]
              exact ⟨⟨hand.1.symm, hb⟩, hand.2⟩)
          by_cases hrest : (fs.any fun f => decide (f.l = l) && !decide (f.b < f.e)
              && decide (w = f.b)) = true
          · rw [if_pos hrest, Bool.eq_false_iff.mpr hu, Bool.false_or, if_pos hrest]
          · rw [if_neg hrest, Bool.eq_false_iff.mpr hu, Bool.false_or, if_neg hrest]
            simp only [gridSet]
            rw [if_neg hnc]

/-- The `i` buffer only ever holds `O` or `I`. -/
theorem iAny_le (frags : List TagFragment) (l w : Nat) : iAny frags l w ≤ I := by
  unfold iAny
  split
  · exact Nat.le_refl I
  · decide

/-- The shared `B`/`L` buffer never exceeds `L`. -/
theorem blFrom_le (l w : Nat) :
    ∀ (frags : List TagFragment) (a : Nat), a ≤ L → blFrom a frags l w ≤ L := by
  intro frags
  induction frags with
  | nil => intro a ha; simpa [blFrom] using ha
  | cons f fs ih =>
    intro a ha
    rw [blFrom_cons]
    apply ih
    split_ifs
    · decide
    · decide
    · exact ha

/-- C6 (amended): a multi-word fragment marks its first word `Begin`, last
word `Last`, interior words `Inside`, a single-word fragment `Unit`, and a
word's final state is the maximum of three buffers: an `Inside` buffer (set
when any multi-word fragment of the label covers the word), the shared
`Begin`/`Last` buffer (holding the LAST fragment's write at that cell, so a
`Begin`/`Last` conflict between two fragments is resolved by array order,
not precedence), and a `Unit` buffer; in particular a word covered by both
an `Inside` and a `Unit` assignment resolves to `Unit`. -/
theorem tag_precedence_amended :
    (∀ (frags : List TagFragment) (l w : Nat),
      buildTags frags l w
        = max (max (iAny frags l w) (blFrom O frags l w)) (uAny frags l w))
    ∧ (∀ (frags : List TagFragment) (l w : Nat),
      uAny frags l w = U → buildTags frags l w = U) := by
  have hchar : ∀ (frags : List TagFragment) (l w : Nat),
      buildTags frags l w
        = max (max (iAny frags l w) (blFrom O frags l w)) (uAny frags l w) := by
    intro frags l w
    have h := tagFold_spec l w frags (fun _ _ => 0) (fun _ _ => 0) (fun _ _ => 0)
    simp only [buildTags]
    rw [h.1, h.2.1, h.2.2]
    rfl
  refine ⟨hchar, ?_⟩
  intro frags l w hu
  rw [hchar frags l w, hu]
  have h1 : iAny frags l w ≤ L := le_trans (iAny_le frags l w) (by decide)
  have h2 : blFrom O frags l w ≤ L := blFrom_le l w frags O (by decide)
  have h3 : max (iAny frags l w) (blFrom O frags l w) ≤ U :=
    le_trans (max_le h1 h2) (by decide)
  exact Nat.max_eq_right h3

/-- Witness for C6 (amended): word 2 is covered by the `Inside` span of
fragment `(0, 4)` and by the `Unit` fragment `(2, 2)` of the same label, and
resolves to `Unit`. -/
theorem tag_precedence_amended_witness :
    buildTags [⟨0, 4, 0⟩, ⟨2, 2, 0⟩] 0 2 = U :=
  tag_precedence_amended.2 [⟨0, 4, 0⟩, ⟨2, 2, 0⟩] 0 2 (by decide)

/-! ### C8: prediction decoder (`NERPreprocessor.decode`) -/

/-- A predicted fragment: inclusive word-index span and label index. -/
structure PredFragment where
  begin : Nat
  end_ : Nat
  label : Nat
  deriving Repr, DecidableEq

/-- A predicted entity: one label index or a list of them, its fragments,
and an opaque confidence (carried through unchanged; its float value is
irrelevant to decoding). -/
structure PredEntity where
  label : List Nat ⊕ Nat
  fragments : List PredFragment
  confidence : Nat
  deriving Repr, DecidableEq

/-- A decoded fragment in document character coordinates. -/
structure OutFragment where
  begin : Nat
  end_ : Nat
  label : String
  text : List Char
  deriving Repr, DecidableEq

/-- An attribute re-derived from a synthetic `"label:value"` string. -/
structure OutAttribute where
  label : String
  value : Option String
  deriving Repr, DecidableEq

/-- A decoded entity. -/
structure OutEntity where
  label : List String
  attributes : List OutAttribute
  fragments : List OutFragment
  confidence : Nat
  deriving Repr, DecidableEq

/-- One output record of `decode`. -/
structure OutDoc where
  doc_id : String
  text : List Char
  entities : List OutEntity
  deriving Repr, DecidableEq

/-- The per-window inputs `decode` reads from a preprocessed sample. -/
structure PrepWindow where
  doc_id : String
  original_doc_text : List Char
  original_sample_begin : Option Nat
  original_sample_text : List Char
  words_begin : List Nat
  words_end : List Nat
  deriving Repr, DecidableEq

/-- Configuration slice of `decode`: the label vocabularies and the
attribute-folding flag. -/
structure DecodeConfig where
  entity_label_values : List String
  fragment_label_values : List String
  convert_attributes_to_labels : Bool
  deriving Repr, DecidableEq

/-- Python `doc_id.rsplit("/", 1)[0]`: everything before the last slash,
or the whole id when it contains none. -/
def docIdBase (s : String) : String :=
  if s.data.contains '/' then
    String.mk (s.data.take (s.data.length - 1 - s.data.reverse.findIdx (fun c => c = '/')))
  else s

/-- Parse a synthetic `"label:value"` string back into an attribute
(ner.py line 501); an empty value becomes `None`. -/
def parseAttr (lab : String) : OutAttribute :=
  let parts := lab.splitOn ":"
  { label := parts.getD 0 ""
    value := if parts.getD 1 "" = "" then none else some (parts.getD 1 "") }

/-- Decode one predicted entity of one window (ner.py lines 493-511):
resolve label indices through the vocabulary, re-derive attributes when
attribute folding is on, and compute each fragment's character bounds as
`char_offset + words_begin[f.begin]` .. `char_offset + words_end[f.end]`
with the corresponding text slice. -/
def decodeEntity (cfg : DecodeConfig) (text : List Char) (char_offset : Nat)
    (w : PrepWindow) (ent : PredEntity) : OutEntity :=
  let label : List String :=
    match ent.label with
    | .inl ls => ls.map (fun l => cfg.entity_label_values.getD l "")
    | .inr l => [cfg.entity_label_values.getD l ""]
  { label := label
    attributes :=
      if cfg.convert_attributes_to_labels then
        (label.filter (fun lab => lab.contains ':')).map parseAttr
      else []
    fragments := ent.fragments.map (fun f =>
      { begin := char_offset + w.words_begin.getD f.begin 0
        end_ := char_offset + w.words_end.getD f.end_ 0
        label := cfg.fragment_label_values.getD f.label ""
        text := (text.take (char_offset + w.words_end.getD f.end_ 0)).drop
          (char_offset + w.words_begin.getD f.begin 0) })
    confidence := ent.confidence }

/-- Append the decoded entities of the current window to the most recent
output record (`docs[-1]["entities"].append(...)`), on a reversed list. -/
def updateHead (docs : List OutDoc) (es : List OutEntity) : List OutDoc :=
  match docs with
  | [] => []
  | d :: ds => { d with entities := d.entities ++ es } :: ds

/-- Embedding of the `decode` loop (ner.py lines 469-513) over the zipped
`(prep, predictions)` pairs, carrying `last_doc_id` and the output records
in reverse order. -/
def decode (cfg : DecodeConfig) (group_by_document : Bool) :
    List (PrepWindow × List PredEntity) → Option String → List OutDoc → List OutDoc
  | [], _, docsRev => docsRev.reverse
  | (w, preds) :: rest, last_doc_id, docsRev =>
    if group_by_document then
      let doc_id := docIdBase w.doc_id
      let docsRev1 := if last_doc_id = some doc_id then docsRev
        else { doc_id := doc_id, text := w.original_doc_text, entities := [] } :: docsRev
      let last1 := if last_doc_id = some doc_id then last_doc_id else some doc_id
      decode cfg group_by_document rest last1
        (updateHead docsRev1 (preds.map
          (decodeEntity cfg w.original_doc_text (w.original_sample_begin.getD 0) w)))
    else
      decode cfg group_by_document rest last_doc_id
        ({ doc_id := w.doc_id, text := w.original_sample_text,
           entities := preds.map (decodeEntity cfg w.original_sample_text 0 w) } :: docsRev)

/-- Entry point of the decoder: zip windows with their predictions and start
with no previous document id and no output. -/
def decode_predictions (cfg : DecodeConfig) (prep : List PrepWindow)
    (predictions : List (List PredEntity)) (group_by_document : Bool) : List OutDoc :=
  decode cfg group_by_document (prep.zip predictions) none []

/-- The consecutive-dedup of a document-id stream, seeded with the previous
id. -/
def dedupFrom : Option String → List String → List String
  | _, [] => []
  | last, x :: xs => if last = some x then dedupFrom last xs else x :: dedupFrom (some x) xs

/-- Appending entities to the head record does not change any record id. -/
theorem updateHead_ids (docs : List OutDoc) (es : List OutEntity) :
    (updateHead docs es).map (fun d => d.doc_id) = docs.map (fun d => d.doc_id) := by
  cases docs <;> rfl

/-- Grouping by document: the output record ids are the consecutive-dedup
of the windows' base document ids. -/
theorem decode_group_ids (cfg : DecodeConfig) :
    ∀ (lst : List (PrepWindow × List PredEntity)) (last : Option String)
      (docsRev : List OutDoc),
      (decode cfg true lst last docsRev).map (fun d => d.doc_id)
        = docsRev.reverse.map (fun d => d.doc_id)
          ++ dedupFrom last (lst.map (fun p => docIdBase p.1.doc_id)) := by
  intro lst
  induction lst with
  | nil =>
    intro last docsRev
    simp [decode, dedupFrom]
  | cons p rest ih =>
    intro last docsRev
    obtain ⟨w, preds⟩ := p
    rw [List.map_cons]
    by_cases hlast : last = some (docIdBase w.doc_id)
    · have hdec : decode cfg true ((w, preds) :: rest) last docsRev
          = decode cfg true rest last
            (updateHead docsRev (preds.map
              (decodeEntity cfg w.original_doc_text (w.original_sample_begin.getD 0) w))) := by
        simp [decode, hlast]
      rw [hdec, ih, dedupFrom, if_pos hlast, List.map_reverse, updateHead_ids,
        List.map_reverse]
    · have hdec : decode cfg true ((w, preds) :: rest) last docsRev
          = decode cfg true rest (some (docIdBase w.doc_id))
            (updateHead
              ({ doc_id := docIdBase w.doc_id
                 text := w.original_doc_text
                 entities := [] } :: docsRev)
              (preds.map
                (decodeEntity cfg w.original_doc_text (w.original_sample_begin.getD 0) w))) := by
        simp [decode, hlast]
      rw [hdec, ih, dedupFrom, if_neg hlast, List.map_reverse, updateHead_ids,
        List.map_cons, List.reverse_cons, List.map_reverse]
      simp

/-- C8: each decoded fragment's character bounds are
`char_offset + words_begin[span.begin]` .. `char_offset + words_end[span.end]`
with the corresponding text substring attached (first conjunct); when
grouping by document, the output records are the consecutive runs of equal
base document ids (second conjunct); concretely, two windows `D1/0` and
`D1/1`, one predicted entity each, decode to the single record `D1` holding
both entities in window order (third conjunct). -/
theorem decode_claim (cfg : DecodeConfig) :
    (∀ (text : List Char) (char_offset : Nat) (w : PrepWindow) (ent : PredEntity),
      (decodeEntity cfg text char_offset w ent).fragments
        = ent.fragments.map (fun f =>
          { begin := char_offset + w.words_begin.getD f.begin 0
            end_ := char_offset + w.words_end.getD f.end_ 0
            label := cfg.fragment_label_values.getD f.label ""
            text := (text.take (char_offset + w.words_end.getD f.end_ 0)).drop
              (char_offset + w.words_begin.getD f.begin 0) }))
    ∧ (∀ (prep : List PrepWindow) (predictions : List (List PredEntity)),
      (decode_predictions cfg prep predictions true).map (fun d => d.doc_id)
        = dedupFrom none ((prep.zip predictions).map (fun p => docIdBase p.1.doc_id)))
    ∧ (∀ (w1 w2 : PrepWindow) (e1 e2 : PredEntity),
      docIdBase w1.doc_id = docIdBase w2.doc_id →
      decode_predictions cfg [w1, w2] [[e1], [e2]] true
        = [{ doc_id := docIdBase w1.doc_id
             text := w1.original_doc_text
             entities := [decodeEntity cfg w1.original_doc_text
                 (w1.original_sample_begin.getD 0) w1 e1,
               decodeEntity cfg w2.original_doc_text
                 (w2.original_sample_begin.getD 0) w2 e2] }]) := by
  refine ⟨fun _ _ _ _ => rfl, ?_, ?_⟩
  · intro prep predictions
    rw [decode_predictions, decode_group_ids cfg (prep.zip predictions) none []]
    rfl
  · intro w1 w2 e1 e2 hid
    have h1 : ¬ (none : Option String) = some (docIdBase w1.doc_id) := by simp
    simp [decode_predictions, decode, updateHead, h1, hid]

/-- Decode-scenario configuration: one label `PER`, no attribute folding. -/
def c8_cfg : DecodeConfig :=
  { entity_label_values := ["PER"]
    fragment_label_values := ["PER"]
    convert_attributes_to_labels := false }

/-- The document text `hello world`. -/
def c8_text : List Char := "hello world".data

/-- First window of document `D1`, covering `hello`. -/
def c8_w1 : PrepWindow :=
  { doc_id := "D1/0"
    original_doc_text := c8_text
    original_sample_begin := some 0
    original_sample_text := "hello".data
    words_begin := [0]
    words_end := [5] }

/-- Second window of document `D1`, covering `world`. -/
def c8_w2 : PrepWindow :=
  { doc_id := "D1/1"
    original_doc_text := c8_text
    original_sample_begin := some 6
    original_sample_text := "world".data
    words_begin := [0]
    words_end := [5] }

/-- One predicted entity spanning the window's single word. -/
def c8_e1 : PredEntity :=
  { label := .inr 0
    fragments := [{ begin := 0, end_ := 0, label := 0 }]
    confidence := 1 }

/-- Witness for C8: the two windows tagged `D1/0` and `D1/1`, one entity
each, decode to exactly one record `D1` containing both entities in window
order. -/
theorem decode_claim_witness :
    decode_predictions c8_cfg [c8_w1, c8_w2] [[c8_e1], [c8_e1]] true
      = [{ doc_id := docIdBase c8_w1.doc_id
           text := c8_w1.original_doc_text
           entities := [decodeEntity c8_cfg c8_w1.original_doc_text
               (c8_w1.original_sample_begin.getD 0) c8_w1 c8_e1,
             decodeEntity c8_cfg c8_w2.original_doc_text
               (c8_w2.original_sample_begin.getD 0) c8_w2 c8_e1] }] :=
  (decode_claim c8_cfg).2.2 c8_w1 c8_w2 c8_e1 c8_e1 (by decide)

/-! ### C10: the `min_tokens <= max_tokens // 2` construction assertion -/

/-- The assertion condition of `NERPreprocessor.__init__`
(ner.py lines 120-121), checked only when both bounds are set. -/
def check_min_max_tokens (min_tokens max_tokens : Option Nat) : Bool :=
  match min_tokens, max_tokens with
  | some mn, some mx => decide (mn ≤ mx / 2)
  | _, _ => true

/-- Construction either passes the assertion or fails with its message. -/
def init_token_bounds (min_tokens max_tokens : Option Nat) : Except String Unit :=
  if check_min_max_tokens min_tokens max_tokens then .ok ()
  else .error
    "Minimum number of tokens must be at least twice as small as the maximum number of tokens"

/-- C10: with both bounds set, construction fails with the assertion error
exactly when `min_tokens` exceeds `max_tokens // 2`; under the precondition
`min_tokens <= max_tokens // 2` the failing branch is unreachable. -/
theorem init_min_max_assertion (mn mx : Nat) :
    (mx / 2 < mn → init_token_bounds (some mn) (some mx)
      = .error
        "Minimum number of tokens must be at least twice as small as the maximum number of tokens")
    ∧ (mn ≤ mx / 2 → init_token_bounds (some mn) (some mx) = .ok ()) := by
  constructor
  · intro h
    rw [init_token_bounds, if_neg]
    simp [check_min_max_tokens, Nat.not_le.mpr h]
  · intro h
    rw [init_token_bounds, if_pos]
    simp [check_min_max_tokens, h]

/-- Witness for C10: `min_tokens = 300 > 512 // 2` is rejected while
`min_tokens = 128 <= 512 // 2` passes. -/
theorem init_min_max_assertion_witness :
    init_token_bounds (some 300) (some 512)
      = .error
        "Minimum number of tokens must be at least twice as small as the maximum number of tokens"
    ∧ init_token_bounds (some 128) (some 512) = .ok () :=
  ⟨(init_min_max_assertion 300 512).1 (by decide),
    (init_min_max_assertion 128 512).2 (by decide)⟩

end Pyner
